import Mathlib

/-!
# secretfs: the share farm and the open/read/release session layer

A shallow embedding of `src/sharefarm.c` and `src/secretfs.c`.

Conventions of the embedding.

* A C string is the list of its characters before the terminating NUL; one
  `Char` stands for one byte of the string.
* `size_t` values are `Nat` taken modulo `2^64`, `off_t` and `int` values are
  `Int`; conversions between them are written out where the code performs them.
* `errno` is an explicit `Nat` threaded through the calls that may set it.
* The directory is a snapshot: the entries `readdir_r` yields, in order, each
  with the outcome the `stat` call of `inject_share` has on it.
* Memory allocation (`malloc`, `calloc`, `realloc`, `strdup`) is taken to
  succeed, so the `ENOMEM` branches are not part of the model.
* One `read` call transfers at most `MAX_RW_COUNT` bytes, as on Linux; `mlock`
  may fail, which the code ignores and which sets `errno`.
* The libc functions (`strrchr`, `atoi`) and the libgfshare calls are not part
  of the repository; they are modelled from their documented behaviour, the
  field arithmetic of libgfshare being a parameter.
-/

deriving instance DecidableEq for Except

namespace SecretFS

/-! ## Error numbers and mode constants -/

def ENOENT : Nat := 2
def ENOMEM : Nat := 12
def EINVAL : Nat := 22

/-- File type bits of a regular file, `S_IFREG`. -/
def S_IFREG : Nat := 0o100000

/-! ## C library string functions -/

/-- Index of the last occurrence of `c` in the string, the result of
`strrchr(s, c)` as an offset from `s`; `none` stands for `NULL`. -/
def strrchr : List Char → Char → Option Nat
  | [], _ => none
  | x :: xs, c =>
    match strrchr xs c with
    | some i => some (i + 1)
    | none => if x = c then some 0 else none

/-- White space in the C locale, `isspace`. -/
def isspace (c : Char) : Bool :=
  c.toNat = 32 || (9 ≤ c.toNat && c.toNat ≤ 13)

/-- Decimal digit characters, `isdigit`. -/
def isdigit (c : Char) : Bool :=
  48 ≤ c.toNat && c.toNat ≤ 57

/-- The digit loop of `atoi`: accumulates decimal digits and stops at the first
character that is not a digit. -/
def atoi_digits (acc : Int) : List Char → Int
  | [] => acc
  | c :: cs => if isdigit c then atoi_digits (acc * 10 + ((c.toNat : Int) - 48)) cs else acc

/-- The result of `atoi(s)`: leading white space is skipped, one optional sign
is read, then the longest run of decimal digits; 0 when there is no digit.
(Values beyond the range of `int` are outside the model; `find_sharenum` only
passes it three characters.) -/
def atoi (s : List Char) : Int :=
  match s.dropWhile isspace with
  | [] => 0
  | c :: r =>
    if c = '-' then - atoi_digits 0 r
    else if c = '+' then atoi_digits 0 r
    else atoi_digits 0 (c :: r)

/-! ## The share parser (`find_sharenum`, sharefarm.c:84) -/

/-- The function `find_sharenum`: `Except.error e` stands for the return value
`-1` with `errno` set to `e`, `Except.ok (stem, sharenum)` for the return value
`0` with the two out-parameters. The test `dot != fname + strlen(fname) - 4` is
the comparison of the offsets `d` and `strlen(fname) - 4`. -/
def find_sharenum (fname : List Char) : Except Nat (List Char × Int) :=
  match strrchr fname '.' with
  | none => .error EINVAL
  | some d =>
    if (d : Int) ≠ (fname.length : Int) - 4 then .error EINVAL
    else if d < 3 then .error EINVAL
    else
      let sharenum := atoi (fname.drop (d + 1))
      if sharenum < 1 ∨ sharenum > 255 then .error EINVAL
      else .ok (fname.take d, sharenum)

/-- The character of a decimal digit `n < 10`. -/
def digitChar (n : Nat) : Char := Char.ofNat (48 + n)

/-- The share file name `stem.abc` with the three decimal digits `a`, `b`, `c`. -/
def share_name (stem : List Char) (a b c : Nat) : List Char :=
  stem ++ ['.', digitChar a, digitChar b, digitChar c]

/-! ## The share farm data model (sharefarm.c:47) -/

/-- The fields of `struct stat` carried along by the farm. -/
structure Stat where
  st_mode : Nat
  st_size : Int
  st_uid : Nat
  st_gid : Nat
  st_atime : Int
  st_mtime : Int
  st_ctime : Int
deriving DecidableEq, Repr

/-- A `struct stat` as `calloc` leaves it: every field zero. -/
def Stat.zero : Stat := ⟨0, 0, 0, 0, 0, 0, 0⟩

/-- What `stat(fname, &sbuf)` does on a directory entry: it fills `sbuf` and
returns 0, or returns -1 with `errno` set. -/
inductive StatOutcome where
  | ok (sbuf : Stat)
  | fail (errno : Nat)
deriving DecidableEq, Repr

/-- One entry of the directory snapshot: the name `readdir_r` yields and the
outcome of `stat` on that name. -/
structure DirEntry where
  d_name : List Char
  st : StatOutcome
deriving DecidableEq, Repr

/-- The struct `sharefarm_content_shares`. -/
structure sharefarm_content_shares where
  fname : List Char
  sharenum : Int
  present : Bool
deriving DecidableEq, Repr

/-- The struct `sharefarm_content`; the `next` pointer is the tail of the list
the record sits in. -/
structure sharefarm_content where
  stem : List Char
  statinfo : Stat
  sharecount : Nat
  shares : List sharefarm_content_shares
deriving DecidableEq, Repr

/-- The function `find_content`: the first record of the chain whose stem is
`name` (`strcmp(...) == 0`); `none` stands for `NULL`. -/
def find_content : List sharefarm_content → List Char → Option sharefarm_content
  | [], _ => none
  | c :: rest, name => if c.stem = name then some c else find_content rest name

/-- Writing through the pointer `find_content` returns: the first record whose
stem is `name` is replaced by `f` of it, the rest of the chain is untouched. -/
def modify_content (f : sharefarm_content → sharefarm_content) :
    List sharefarm_content → List Char → List sharefarm_content
  | [], _ => []
  | c :: rest, name =>
    if c.stem = name then f c :: rest else c :: modify_content f rest name

/-- The statement `m &= ~(mask)` on the 32-bit `mode_t`. -/
def clear_bits (m mask : Nat) : Nat := m &&& (0xFFFFFFFF - mask)

/-- The function `update_share_mode`: the loop over `shares[i]`, `i < sharecount`
(the first `sharecount` shares), clears `0777` for each share that is not
present, then `0377` is cleared. -/
def update_share_mode (c : sharefarm_content) : sharefarm_content :=
  let mode := (c.shares.take c.sharecount).foldl
    (fun m s => if s.present = false then clear_bits m 0o777 else m)
    c.statinfo.st_mode
  { c with statinfo := { c.statinfo with st_mode := clear_bits mode 0o377 } }

/-- The function `inject_share` on the chain `tail`, with `errno` threaded
through: the result is the new head of the chain and the value of `errno`.
`sbuf?` is `some sbuf` exactly when `stat` returned 0 (`i == 0`). The write to
`shares[sharecount]` after `realloc` is the append to the share list. -/
def inject_share (tail : List sharefarm_content) (errno : Nat) (e : DirEntry) :
    List sharefarm_content × Nat :=
  match find_sharenum e.d_name with
  | .error en => (tail, en)
  | .ok (stem, sharenum) =>
    let errno := match e.st with
      | .ok _ => errno
      | .fail en => en
    let sbuf? := match e.st with
      | .ok sbuf => some sbuf
      | .fail _ => none
    if sbuf?.isNone ∧ errno ≠ ENOENT then (tail, errno)
    else
      let share : sharefarm_content_shares :=
        { fname := e.d_name, sharenum := sharenum, present := sbuf?.isSome }
      match find_content tail stem with
      | none =>
        (update_share_mode
          { stem := stem
            statinfo := sbuf?.getD { Stat.zero with st_mode := S_IFREG }
            sharecount := 1
            shares := [share] } :: tail, errno)
      | some _ =>
        (modify_content
          (fun c => update_share_mode
            { c with
              statinfo := sbuf?.getD c.statinfo
              shares := c.shares ++ [share]
              sharecount := c.sharecount + 1 })
          tail stem, errno)

/-- One turn of the `readdir_r` loop of `find_all_shares`: entries whose name
starts with a dot are passed over, the others go to `inject_share`. -/
def scan_step (st : List sharefarm_content × Nat) (e : DirEntry) :
    List sharefarm_content × Nat :=
  if e.d_name.head? = some '.' then st else inject_share st.1 st.2 e

/-- The function `find_all_shares` on a directory snapshot (`opendir` succeeds
and `readdir_r` reports no error, so the return value is 0): the chain stored
in `*ct` and the value of `errno` afterwards. -/
def find_all_shares (dir : List DirEntry) (errno : Nat) : List sharefarm_content × Nat :=
  dir.foldl scan_step ([], errno)

/-- The function `sharefarm_stat`: `Except.error e` is the return value `-e`. -/
def sharefarm_stat (dir : List DirEntry) (errno : Nat) (path : List Char) : Except Nat Stat :=
  match find_content (find_all_shares dir errno).1 path with
  | none => .error ENOENT
  | some cc => .ok cc.statinfo

/-- The function `sharefarm_enumerate_helper`: the (stem, attributes) pairs the
callback receives, in order. -/
def sharefarm_enumerate_helper (dir : List DirEntry) (errno : Nat) : List (List Char × Stat) :=
  (find_all_shares dir errno).1.map (fun cc => (cc.stem, cc.statinfo))

/-! ## Reconstruction of a secret (`sharefarm_read`, sharefarm.c:268) -/

/-- The most one `read` call transfers on Linux, `MAX_RW_COUNT`. -/
def MAX_RW_COUNT : Nat := 0x7ffff000

/-- What the one call `read(fd, sparebuf, len)` at the start of a file of
content `bytes` delivers: the first `len` bytes, fewer when the file is shorter
and never more than `MAX_RW_COUNT`. -/
def read_bytes (len : Nat) (bytes : List Nat) : List Nat :=
  bytes.take (min len MAX_RW_COUNT)

/-- What `open(fname, O_RDONLY)` followed by `read(fd, sparebuf, len)` does on
a backing file: `open` fails with an `errno`, `read` fails with an `errno`, or
the file has content `bytes` and the one `read` call delivers
`read_bytes len bytes`, leaving `errno` alone. -/
inductive FileOutcome where
  | open_fails (errno : Nat)
  | read_fails (errno : Nat)
  | data (bytes : List Nat)
deriving DecidableEq, Repr

/-- The farm as `sharefarm_read` meets it: the directory snapshot, the backing
files by name, the value of `errno` on entry, and what `mlock` does:
`mlock_errno` is 0 when `mlock` succeeds and otherwise the `errno` the failing
`mlock` sets (the code ignores its return value). -/
structure Farm where
  dir : List DirEntry
  file : List Char → FileOutcome
  errno : Nat
  mlock_errno : Nat := 0

/-- The value of `errno` after the call `mlock(*buf, *len)`: a failing `mlock`
sets it, a successful one leaves it alone. -/
def errno_after_mlock (farm : Farm) (errno : Nat) : Nat :=
  if farm.mlock_errno = 0 then errno else farm.mlock_errno

/-- The calls with an effect outside the function, in the order they happen. -/
inductive Event where
  | mlock (len : Nat)
  | munlock (len : Nat)
  | free_buf
  | free_fh
  | gf_init (sharenrs : List Nat) (sharecount : Nat) (size : Nat)
  | gf_giveshare (sharenr : Nat) (share : List Nat)
  | gf_extract
  | gf_free
  | file_open (fname : List Char)
  | file_close (fname : List Char)
deriving DecidableEq, Repr

/-- Modelled from the spec: the reconstruction context of the external Secret
Reconstructor (libgfshare, not part of the repository): the share indices
declared at `begin`, the secret length, and one slot of share bytes per
declared index. -/
structure gfshare_ctx where
  sharenrs : List Nat
  size : Nat
  buffer : List (List Nat)
deriving DecidableEq, Repr

/-- Modelled from the spec: `begin(share_indices, secret_length)` of the Secret
Reconstructor, the call `gfshare_ctx_init_dec`. -/
def gfshare_ctx_init_dec (sharenrs : List Nat) (sharecount size : Nat) : gfshare_ctx :=
  { sharenrs := sharenrs.take sharecount
    size := size
    buffer := List.replicate sharecount (List.replicate size 0) }

/-- Modelled from the spec: `supply(context, position, share_bytes)` of the
Secret Reconstructor, the call `gfshare_ctx_dec_giveshare`. -/
def gfshare_ctx_dec_giveshare (ctx : gfshare_ctx) (sharenr : Nat) (share : List Nat) :
    gfshare_ctx :=
  { ctx with buffer := ctx.buffer.set sharenr (share.take ctx.size) }

/-- Modelled from the spec: `finish(context, out_buffer)` of the Secret
Reconstructor, the call `gfshare_ctx_dec_extract`; the field arithmetic that
combines the slots is the parameter `recombine`. The bytes produced overwrite
the start of `out`, whose length does not change. -/
def gfshare_ctx_dec_extract (recombine : List Nat → Nat → List (List Nat) → List Nat)
    (ctx : gfshare_ctx) (out : List Nat) : List Nat :=
  let secret := recombine ctx.sharenrs ctx.size ctx.buffer
  secret.take out.length ++ out.drop secret.length

/-- The variables of `sharefarm_read` that the share loop changes. -/
structure ReadState where
  ret : Int
  errno : Nat
  gfc : gfshare_ctx
  events : List Event
deriving DecidableEq, Repr

/-- The loop of `sharefarm_read` over the shares (sharefarm.c:318), from
position `i` on. The flag is `true` when the loop runs to its end and `false`
when it leaves through `goto out`. A failing `open` or `read` sets `errno`; a
short `read` does not, and `ret = -errno` takes the value `errno` already has. -/
def read_shares (file : List Char → FileOutcome) (len : Nat) :
    List sharefarm_content_shares → Nat → ReadState → Bool × ReadState
  | [], _, st => (true, st)
  | s :: rest, i, st =>
    match file s.fname with
    | .open_fails en =>
      (false, { st with
        errno := en, ret := -(en : Int)
        events := st.events ++ [.file_open s.fname] })
    | .read_fails en =>
      (false, { st with
        errno := en, ret := -(en : Int)
        events := st.events ++ [.file_open s.fname, .file_close s.fname] })
    | .data bytes =>
      if (read_bytes len bytes).length ≠ len then
        (false, { st with
          ret := -(st.errno : Int)
          events := st.events ++ [.file_open s.fname, .file_close s.fname] })
      else
        read_shares file len rest (i + 1)
          { st with
            gfc := gfshare_ctx_dec_giveshare st.gfc i (read_bytes len bytes)
            events := st.events ++
              [.file_open s.fname, .file_close s.fname,
                .gf_giveshare i (read_bytes len bytes)] }

/-- What `sharefarm_read` leaves behind: the return value, `*len`, the bytes at
`*buf`, whether that buffer has been freed, the trace of calls and `errno`. -/
structure ReadResult where
  ret : Int
  len : Nat
  buf : List Nat
  buf_freed : Bool
  events : List Event
  errno : Nat
deriving DecidableEq, Repr

/-- The bytes `sharenrs[i] = (unsigned char) shares[i].sharenum` for
`i < sharecount`. -/
def sharenrs_of (cc : sharefarm_content) : List Nat :=
  (cc.shares.take cc.sharecount).map (fun s => (s.sharenum % 256).toNat)

/-- The variables of `sharefarm_read` on entry to the share loop, for the record
`cc` found: `ret` is the 0 `find_all_shares` returned, `*buf` has been allocated
with `*len = st_size` and `mlock` called on it, `errno` is the value after
that call, and the reconstruction context has been created from `sharenrs`,
`sharecount` and `st_size`. -/
def read_init (cc : sharefarm_content) (errno : Nat) : ReadState :=
  { ret := 0
    errno := errno
    gfc := gfshare_ctx_init_dec (sharenrs_of cc) cc.sharecount cc.statinfo.st_size.toNat
    events := [.mlock (cc.statinfo.st_size % 2 ^ 64).toNat,
      .gf_init (sharenrs_of cc) cc.sharecount cc.statinfo.st_size.toNat] }

/-- The function `sharefarm_read`. On the `ENOENT` path `*len` and `*buf` are
not written (they keep the zeroes of the caller's `calloc`). -/
def sharefarm_read (recombine : List Nat → Nat → List (List Nat) → List Nat)
    (farm : Farm) (path : List Char) : ReadResult :=
  let scan := find_all_shares farm.dir farm.errno
  match find_content scan.1 path with
  | none =>
    { ret := -(ENOENT : Int), len := 0, buf := [], buf_freed := false
      events := [], errno := scan.2 }
  | some cc =>
    let len := (cc.statinfo.st_size % 2 ^ 64).toNat
    let buf := List.replicate len 0
    let loop := read_shares farm.file len (cc.shares.take cc.sharecount) 0
      (read_init cc (errno_after_mlock farm scan.2))
    let st := loop.2
    let buf := if loop.1 then gfshare_ctx_dec_extract recombine st.gfc buf else buf
    let events := if loop.1 then st.events ++ [.gf_extract] else st.events
    if st.ret < 0 then
      { ret := st.ret, len := len, buf := buf, buf_freed := true
        events := events ++ [.munlock len, .free_buf, .gf_free], errno := st.errno }
    else
      { ret := st.ret, len := len, buf := buf, buf_freed := false
        events := events ++ [.gf_free], errno := st.errno }

/-! ## The session layer (secretfs.c) -/

/-- The struct `secretfs_fh`. -/
structure secretfs_fh where
  len : Nat
  buf : List Nat
deriving DecidableEq, Repr

/-- What `secretfs_open` leaves behind: the return value, the handle stored in
`ffi->fh` (`none` is the null handle) and the trace of calls. -/
structure OpenResult where
  ret : Int
  fh : Option secretfs_fh
  events : List Event
deriving DecidableEq, Repr

/-- The function `secretfs_open`; `fh` is the handle `ffi->fh` holds on entry
and `path + 1` is the path without its first character. -/
def secretfs_open (recombine : List Nat → Nat → List (List Nat) → List Nat)
    (farm : Farm) (path : List Char) (fh : Option secretfs_fh) : OpenResult :=
  let r := sharefarm_read recombine farm path.tail
  if r.ret < 0 then
    { ret := r.ret, fh := fh, events := r.events ++ [.free_fh] }
  else
    { ret := 0, fh := some { len := r.len, buf := r.buf }, events := r.events }

/-- The conversion of a `size_t` to the `int` return value. -/
def int_of_size (n : Nat) : Int :=
  if n % 2 ^ 32 < 2 ^ 31 then (n % 2 ^ 32 : Nat) else (n % 2 ^ 32 : Nat) - 2 ^ 32

/-- What `secretfs_read` does: it returns `ret` having written `copied` to the
start of the caller's buffer, or the `memcpy` reads outside the session's
buffer (`fault`, undefined behaviour). -/
inductive ReadOutcome where
  | done (ret : Int) (copied : List Nat)
  | fault
deriving DecidableEq, Repr

/-- The function `secretfs_read` on the handle `fh`, with the handle it leaves
in `ffi->fh` (the code never writes it). `offset + size` and `fh->len - offset`
are computed in `size_t`, modulo `2^64`. -/
def secretfs_read (fh : Option secretfs_fh) (size : Nat) (offset : Int) :
    ReadOutcome × Option secretfs_fh :=
  match fh with
  | none => (.done (-(EINVAL : Int)) [], fh)
  | some h =>
    let off := (offset % 2 ^ 64).toNat
    let size := if (off + size) % 2 ^ 64 > h.len then (h.len + 2 ^ 64 - off) % 2 ^ 64 else size
    if size = 0 then (.done 0 [], fh)
    else if 0 ≤ offset ∧ offset.toNat + size ≤ h.buf.length then
      (.done (int_of_size size) ((h.buf.drop offset.toNat).take size), fh)
    else (.fault, fh)

/-- The function `secretfs_release`: the return value, the handle left in
`ffi->fh` and the trace of calls. -/
def secretfs_release (fh : Option secretfs_fh) : Int × Option secretfs_fh × List Event :=
  match fh with
  | some h => (0, none, [.munlock h.len, .free_buf, .free_fh])
  | none => (0, fh, [])

/-- The function `secretfs_getattr`; `farm_sbuf` is the attribute record of the
farm directory taken by `init_sharefarm`. -/
def secretfs_getattr (farm_sbuf : Stat) (dir : List DirEntry) (errno : Nat)
    (path : List Char) : Except Nat Stat :=
  if path = ['/'] then .ok farm_sbuf else sharefarm_stat dir errno path.tail

/-- The function `secretfs_opendir`: the return value. -/
def secretfs_opendir (path : List Char) : Int :=
  if path ≠ ['/'] then -(ENOENT : Int) else 0

/-! ## The scan in the words of the specification -/

/-- An accepted directory entry: its stem, the share it records, and the
attributes `stat` gave when the share is present. -/
structure Accepted where
  stem : List Char
  share : sharefarm_content_shares
  sbuf : Option Stat
deriving DecidableEq, Repr

/-- The accepted entries in the words of the specification: the name does not
start with a dot, the parser accepts it, and `stat` either succeeded (share
present) or failed with not-found (share absent). -/
def accept (e : DirEntry) : Option Accepted :=
  if e.d_name.head? = some '.' then none
  else
    match find_sharenum e.d_name with
    | .error _ => none
    | .ok (stem, sharenum) =>
      match e.st with
      | .ok sbuf =>
        some { stem := stem, share := ⟨e.d_name, sharenum, true⟩, sbuf := some sbuf }
      | .fail en =>
        if en = ENOENT then
          some { stem := stem, share := ⟨e.d_name, sharenum, false⟩, sbuf := none }
        else none

/-- The entries of a listing whose name does not start with a dot: all but
`.`, `..` and hidden files. -/
def visible (dir : List DirEntry) : List DirEntry :=
  dir.filter (fun e => e.d_name.head? ≠ some '.')

/-- The accepted entries of a directory snapshot, in discovery order. -/
def accepted (dir : List DirEntry) : List Accepted := dir.filterMap accept

/-- The accepted entries of one stem, in discovery order. -/
def accepted_for (dir : List DirEntry) (stem : List Char) : List Accepted :=
  (accepted dir).filter (fun a => a.stem = stem)

/-- The attributes of the first present share among accepted entries. -/
def first_present_stat (l : List Accepted) : Option Stat := (l.filterMap (fun a => a.sbuf)).head?

/-- The attributes of the last present share among accepted entries. -/
def last_present_stat (l : List Accepted) : Option Stat :=
  (l.filterMap (fun a => a.sbuf)).getLast?

/-- Whether some share among accepted entries is absent. -/
def any_absent (l : List Accepted) : Bool := l.any (fun a => !a.share.present)

/-- The mode after masking: `0377` cleared, and `0777` cleared before that when
a share is absent. -/
def masked_mode (m : Nat) (absent : Bool) : Nat :=
  clear_bits (if absent then clear_bits m 0o777 else m) 0o377

/-- The attribute record the entries of one stem add up to: that of the last
present share (the zeroed record of type regular file when there is none), with
the mode masked. -/
def stat_of (l : List Accepted) : Stat :=
  let base := (last_present_stat l).getD { Stat.zero with st_mode := S_IFREG }
  { base with st_mode := masked_mode base.st_mode (any_absent l) }

/-- The record the accepted entries `l` add up to for `stem`. -/
def content_of (l : List Accepted) (stem : List Char) : sharefarm_content :=
  let l1 := l.filter (fun a => a.stem = stem)
  { stem := stem, statinfo := stat_of l1, sharecount := l1.length
    shares := l1.map (fun a => a.share) }

/-- The part of `inject_share` after the entry has been accepted. -/
def inject_accepted (tail : List sharefarm_content) (a : Accepted) : List sharefarm_content :=
  match find_content tail a.stem with
  | none =>
    update_share_mode
      { stem := a.stem
        statinfo := a.sbuf.getD { Stat.zero with st_mode := S_IFREG }
        sharecount := 1
        shares := [a.share] } :: tail
  | some _ =>
    modify_content
      (fun c => update_share_mode
        { c with
          statinfo := a.sbuf.getD c.statinfo
          shares := c.shares ++ [a.share]
          sharecount := c.sharecount + 1 })
      tail a.stem

/-! ## Reading the trace of `sharefarm_read` -/

/-- The declarations made to the reconstructor: the arguments of each
`gfshare_ctx_init_dec` call in the trace. -/
def declared (ev : List Event) : List (List Nat × Nat × Nat) :=
  ev.filterMap (fun e =>
    match e with
    | .gf_init nrs cnt sz => some (nrs, cnt, sz)
    | _ => none)

/-- The names passed to `open`, in order. -/
def opened (ev : List Event) : List (List Char) :=
  ev.filterMap (fun e =>
    match e with
    | .file_open f => some f
    | _ => none)

/-- The shares supplied to the reconstructor: position and bytes of each
`gfshare_ctx_dec_giveshare` call, in order. -/
def supplied (ev : List Event) : List (Nat × List Nat) :=
  ev.filterMap (fun e =>
    match e with
    | .gf_giveshare i b => some (i, b)
    | _ => none)

/-- Whether the backing file of a share opens and its one `read` call delivers
`len` bytes. -/
def delivers (file : List Char → FileOutcome) (len : Nat) (s : sharefarm_content_shares) : Bool :=
  match file s.fname with
  | .data bytes => decide ((read_bytes len bytes).length = len)
  | _ => false

/-- The bytes the one `read` call of `len` bytes delivers from a backing file
(nothing when it does not open or read). -/
def file_bytes (file : List Char → FileOutcome) (len : Nat) (fname : List Char) : List Nat :=
  match file fname with
  | .data bytes => read_bytes len bytes
  | _ => []

/-- The stem the parser gives a name, if it accepts it. -/
def stem_of (fname : List Char) : Option (List Char) :=
  match find_sharenum fname with
  | .ok p => some p.1
  | .error _ => none

/-- The share file name of index `n` in three decimal digits: `stem.NNN`. -/
def share_file (stem : List Char) (n : Nat) : List Char :=
  share_name stem (n / 100) (n / 10 % 10) (n % 10)

/-- The directory entry of the share `p = (index, bytes)` of `stem`: the file
`stem.NNN`, present, with attributes `sts index`. -/
def share_entry (stem : List Char) (sts : Nat → Stat) (p : Nat × List Nat) : DirEntry :=
  ⟨share_file stem p.1, .ok (sts p.1)⟩

/-- The accepted entry of the share `p = (index, bytes)` of `stem`. -/
def share_accepted (stem : List Char) (sts : Nat → Stat) (p : Nat × List Nat) : Accepted :=
  { stem := stem, share := ⟨share_file stem p.1, (p.1 : Int), true⟩, sbuf := some (sts p.1) }

/-- The share file name of index `n` as the bare numeral: `stem.N`, for `n < 10`. -/
def share_file_plain (stem : List Char) (n : Nat) : List Char :=
  stem ++ ['.', digitChar n]

/-- A recombination for concrete runs: the bytes of the first slot. On the
shares of a threshold-1 split, which all equal the secret, this is what
interpolation gives. -/
def first_slot : List Nat → Nat → List (List Nat) → List Nat :=
  fun _ _ slots => slots.headD []

/-! ## Concrete farms -/

/-- The stem `doc`. -/
def doc : List Char := ['d', 'o', 'c']

/-- The share file name `doc.001`. -/
def doc001 : List Char := ['d', 'o', 'c', '.', '0', '0', '1']

/-- The share file name `doc.002`. -/
def doc002 : List Char := ['d', 'o', 'c', '.', '0', '0', '2']

/-- Attributes of a 10-byte regular file, mode 0644. -/
def sbuf_a : Stat :=
  { st_mode := 0o100644, st_size := 10, st_uid := 1000, st_gid := 1000
    st_atime := 1, st_mtime := 1, st_ctime := 1 }

/-- Attributes of a 20-byte regular file, mode 0600. -/
def sbuf_b : Stat :=
  { st_mode := 0o100600, st_size := 20, st_uid := 1000, st_gid := 1000
    st_atime := 2, st_mtime := 2, st_ctime := 2 }

/-- A directory holding `doc.001` and `doc.002`, both present. -/
def dir_two_present : List DirEntry :=
  [⟨doc001, .ok sbuf_a⟩, ⟨doc002, .ok sbuf_b⟩]

/-- A directory holding `doc.001`, present, and `doc.002`, a name whose target
is not found. -/
def dir_one_absent : List DirEntry :=
  [⟨doc001, .ok sbuf_a⟩, ⟨doc002, .fail ENOENT⟩]

/-- The record a scan of `dir_one_absent` holds for `doc`. -/
def content_one_absent : sharefarm_content :=
  { stem := doc
    statinfo := { sbuf_a with st_mode := 0o100000 }
    sharecount := 2
    shares := [⟨doc001, 1, true⟩, ⟨doc002, 2, false⟩] }

/-- The record a scan of `dir_two_present` holds for `doc`. -/
def content_two_present : sharefarm_content :=
  { stem := doc
    statinfo := { sbuf_b with st_mode := 0o100400 }
    sharecount := 2
    shares := [⟨doc001, 1, true⟩, ⟨doc002, 2, true⟩] }

/-- An open session over a 10-byte buffer. -/
def session_ten : secretfs_fh := { len := 10, buf := [1, 2, 3, 4, 5, 6, 7, 8, 9, 10] }

/-- Ten bytes of a secret. -/
def secret_ten : List Nat := [11, 22, 33, 44, 55, 66, 77, 88, 99, 110]

/-- Attributes of a 5-byte regular file, mode 0644. -/
def sbuf_five : Stat :=
  { st_mode := 0o100644, st_size := 5, st_uid := 1000, st_gid := 1000
    st_atime := 3, st_mtime := 3, st_ctime := 3 }

/-- A farm with `doc.001` present and `doc.002` recorded as absent, whose
backing file does not open. -/
def farm_one_absent : Farm :=
  { dir := dir_one_absent
    file := fun n => if n = doc001 then .data secret_ten else .open_fails ENOENT
    errno := 0 }

/-- A farm whose two shares of `doc` differ in length: `doc.001` holds 5 bytes,
`doc.002` holds 10; `errno` is 0 on entry. -/
def farm_uneven : Farm :=
  { dir := [⟨doc001, .ok sbuf_five⟩, ⟨doc002, .ok sbuf_a⟩]
    file := fun n =>
      if n = doc001 then .data [1, 2, 3, 4, 5]
      else if n = doc002 then .data secret_ten
      else .open_fails ENOENT
    errno := 0 }

/-- The attribute record of a farm directory, mode 0755. -/
def farm_sbuf_dir : Stat :=
  { st_mode := 0o040755, st_size := 4096, st_uid := 1000, st_gid := 1000
    st_atime := 5, st_mtime := 5, st_ctime := 5 }

/-- The entries `.` and `..` every listing of a directory carries. -/
def dot_entries : List DirEntry :=
  [⟨['.'], .ok farm_sbuf_dir⟩, ⟨['.', '.'], .ok farm_sbuf_dir⟩]

/-- A farm holding the two shares `doc.001`, `doc.002` of a threshold-1 split
of `secret_ten`; the listing carries `.` and `..` as well. -/
def farm_split : Farm :=
  { dir := dot_entries ++ [⟨doc001, .ok sbuf_a⟩, ⟨doc002, .ok sbuf_a⟩]
    file := fun n =>
      if n = doc001 then .data secret_ten
      else if n = doc002 then .data secret_ten
      else .open_fails ENOENT
    errno := 0 }

/-- The same two shares under the names `doc.1` and `doc.2`. -/
def farm_plain_names : Farm :=
  { dir := [⟨share_file_plain doc 1, .ok sbuf_a⟩, ⟨share_file_plain doc 2, .ok sbuf_a⟩]
    file := fun n =>
      if n = share_file_plain doc 1 then .data secret_ten
      else if n = share_file_plain doc 2 then .data secret_ten
      else .open_fails ENOENT
    errno := 0 }

/-- The error number `ENOTDIR`. -/
def ENOTDIR : Nat := 20

/-- The stem `other`. -/
def other : List Char := ['o', 't', 'h', 'e', 'r']

/-- The share file name `other.001`. -/
def other001 : List Char := ['o', 't', 'h', 'e', 'r', '.', '0', '0', '1']

/-- The directory of the present files `doc.1`, `doc.2` and `other.1`. -/
def dir_plain_three : List DirEntry :=
  [⟨share_file_plain doc 1, .ok sbuf_a⟩, ⟨share_file_plain doc 2, .ok sbuf_a⟩,
    ⟨share_file_plain other 1, .ok sbuf_a⟩]

/-- The directory of the present files `doc.001`, `doc.002` and `other.001`,
with attributes `sa`, `sb`, `sc`. -/
def dir_three (sa sb sc : Stat) : List DirEntry :=
  [⟨doc001, .ok sa⟩, ⟨doc002, .ok sb⟩, ⟨other001, .ok sc⟩]

/-- A listing of the farm of `doc.001`, `doc.002` and `other.001` as `readdir_r`
yields it: the three files in some order, between `.` and `..`. -/
def listing_three : List DirEntry :=
  [⟨['.'], .ok farm_sbuf_dir⟩, ⟨other001, .ok sbuf_b⟩, ⟨doc001, .ok sbuf_a⟩,
    ⟨['.', '.'], .ok farm_sbuf_dir⟩, ⟨doc002, .ok sbuf_five⟩]

/-- A directory holding the one present file `doc.001`, mode 0644. -/
def dir_single : List DirEntry := [⟨doc001, .ok sbuf_a⟩]

/-- The record a scan of `dir_single` holds for `doc`. -/
def content_single : sharefarm_content :=
  { stem := doc
    statinfo := { sbuf_a with st_mode := 0o100400 }
    sharecount := 1
    shares := [⟨doc001, 1, true⟩] }

/-- The share file name `doc.003`. -/
def doc003 : List Char := ['d', 'o', 'c', '.', '0', '0', '3']

/-- A farm whose first share `doc.001` holds 5 bytes, whose second `doc.002`
holds 10, and whose third `doc.003` is recorded as absent. -/
def farm_short_then_absent : Farm :=
  { dir := dot_entries ++
      [⟨doc001, .ok sbuf_five⟩, ⟨doc002, .ok sbuf_a⟩, ⟨doc003, .fail ENOENT⟩]
    file := fun n =>
      if n = doc001 then .data [1, 2, 3, 4, 5]
      else if n = doc002 then .data secret_ten
      else .open_fails ENOENT
    errno := 0 }

/-! ## The share parser: lemmas -/

theorem strrchr_none_iff (s : List Char) (c : Char) : strrchr s c = none ↔ c ∉ s := by
  induction s with
  | nil => simp [strrchr]
  | cons x xs ih =>
    unfold strrchr
    cases h : strrchr xs c with
    | none =>
      have hx : c ∉ xs := ih.mp h
      by_cases hxc : x = c
      · simp [hxc]
      · have : ¬ c = x := fun h => hxc h.symm
        simp [hxc, hx, this]
    | some i =>
      have hx : ¬ c ∉ xs := fun hn => by
        have := ih.mpr hn
        rw [h] at this
        cases this
      have hx2 : c ∈ xs := by
        by_contra hn
        exact hx hn
      simp [hx2]

theorem strrchr_append (pre suf : List Char) (c : Char) (h : c ∉ suf) :
    strrchr (pre ++ c :: suf) c = some pre.length := by
  induction pre with
  | nil =>
    have hn : strrchr suf c = none := (strrchr_none_iff suf c).mpr h
    simp [strrchr, hn]
  | cons x xs ih =>
    simp [strrchr, ih]

theorem strrchr_some_split (s : List Char) (c : Char) (d : Nat) (h : strrchr s c = some d) :
    ∃ pre suf, s = pre ++ c :: suf ∧ c ∉ suf ∧ pre.length = d := by
  induction s generalizing d with
  | nil => simp [strrchr] at h
  | cons x xs ih =>
    unfold strrchr at h
    cases hx : strrchr xs c with
    | none =>
      rw [hx] at h
      by_cases hxc : x = c
      · simp [hxc] at h
        refine ⟨[], xs, ?_, (strrchr_none_iff xs c).mp hx, ?_⟩
        · simp [hxc]
        · simp [h]
      · simp [hxc] at h
    | some i =>
      rw [hx] at h
      simp at h
      obtain ⟨pre, suf, hs, hsuf, hlen⟩ := ih i hx
      refine ⟨x :: pre, suf, ?_, hsuf, ?_⟩
      · simp [hs]
      · simp [hlen, h]

/-- The parser on a name split at its last dot. -/
theorem find_sharenum_split (pre suf : List Char) (h : '.' ∉ suf) :
    find_sharenum (pre ++ '.' :: suf) =
      if suf.length ≠ 3 then .error EINVAL
      else if pre.length < 3 then .error EINVAL
      else if atoi suf < 1 ∨ atoi suf > 255 then .error EINVAL
      else .ok (pre, atoi suf) := by
  unfold find_sharenum
  rw [strrchr_append pre suf '.' h]
  have hdrop : List.drop (pre.length + 1) (pre ++ '.' :: suf) = suf := by
    rw [List.drop_append_eq_append_drop]
    simp
  have htake : List.take pre.length (pre ++ '.' :: suf) = pre := by
    simp
  simp only [hdrop, htake]
  have hlen : ((pre.length : Int) ≠ ((pre ++ '.' :: suf).length : Int) - 4) ↔ suf.length ≠ 3 := by
    simp only [List.length_append, List.length_cons]
    push_cast
    omega
  by_cases h3 : suf.length = 3
  · have : ¬ ((pre.length : Int) ≠ ((pre ++ '.' :: suf).length : Int) - 4) := by
      rw [hlen]; simp [h3]
    have h3n : ¬ suf.length ≠ 3 := by simp [h3]
    rw [if_neg this, if_neg h3n]
  · have : ((pre.length : Int) ≠ ((pre ++ '.' :: suf).length : Int) - 4) := hlen.mpr h3
    rw [if_pos this, if_pos h3]

theorem digitChar_toNat (n : Nat) (h : n < 10) : (digitChar n).toNat = 48 + n := by
  interval_cases n <;> rfl

theorem digitChar_isdigit (n : Nat) (h : n < 10) : isdigit (digitChar n) = true := by
  interval_cases n <;> rfl

theorem digitChar_isspace (n : Nat) (h : n < 10) : isspace (digitChar n) = false := by
  interval_cases n <;> rfl

theorem digitChar_ne (n : Nat) (h : n < 10) :
    digitChar n ≠ '.' ∧ digitChar n ≠ '-' ∧ digitChar n ≠ '+' := by
  interval_cases n <;> decide

/-- The numeral of three decimal digits read by `atoi`. -/
theorem atoi_three_digits (a b c : Nat) (ha : a < 10) (hb : b < 10) (hc : c < 10) :
    atoi [digitChar a, digitChar b, digitChar c] = ((100 * a + 10 * b + c : Nat) : Int) := by
  have hm := (digitChar_ne a ha).2.1
  have hp := (digitChar_ne a ha).2.2
  simp only [atoi, List.dropWhile, digitChar_isspace a ha, if_neg hm, if_neg hp, atoi_digits,
    digitChar_isdigit a ha, digitChar_isdigit b hb, digitChar_isdigit c hc, if_true,
    digitChar_toNat a ha, digitChar_toNat b hb, digitChar_toNat c hc]
  push_cast
  ring

theorem digits_not_dot (a b c : Nat) (ha : a < 10) (hb : b < 10) (hc : c < 10) :
    '.' ∉ [digitChar a, digitChar b, digitChar c] := by
  have h1 := (digitChar_ne a ha).1
  have h2 := (digitChar_ne b hb).1
  have h3 := (digitChar_ne c hc).1
  simp [Ne.symm h1, Ne.symm h2, Ne.symm h3]

/-- C3: for every name `stem.NNN` whose stem has at least 3 characters and whose
suffix is three decimal digits `a b c` of value `100a + 10b + c` in 1..255,
`find_sharenum` succeeds and returns the stem (the name without its last four
characters) and that value. -/
theorem find_sharenum_valid (stem : List Char) (a b c : Nat)
    (hs : 3 ≤ stem.length) (ha : a < 10) (hb : b < 10) (hc : c < 10)
    (hlo : 1 ≤ 100 * a + 10 * b + c) (hhi : 100 * a + 10 * b + c ≤ 255) :
    find_sharenum (share_name stem a b c) = .ok (stem, ((100 * a + 10 * b + c : Nat) : Int))
      ∧ stem = (share_name stem a b c).take ((share_name stem a b c).length - 4) := by
  constructor
  · unfold share_name
    rw [find_sharenum_split stem _ (digits_not_dot a b c ha hb hc),
      atoi_three_digits a b c ha hb hc]
    have h1 : ¬ ([digitChar a, digitChar b, digitChar c].length ≠ 3) := by simp
    have h2 : ¬ stem.length < 3 := by omega
    have h3 : ¬ (((100 * a + 10 * b + c : Nat) : Int) < 1 ∨
        ((100 * a + 10 * b + c : Nat) : Int) > 255) := by
      omega
    rw [if_neg h1, if_neg h2, if_neg h3]
  · simp [share_name]

theorem find_sharenum_valid_witness :
    find_sharenum (share_name ['d', 'o', 'c'] 0 4 2) = .ok (['d', 'o', 'c'], ((42 : Nat) : Int))
      ∧ ['d', 'o', 'c'] =
        (share_name ['d', 'o', 'c'] 0 4 2).take ((share_name ['d', 'o', 'c'] 0 4 2).length - 4) :=
  find_sharenum_valid ['d', 'o', 'c'] 0 4 2 (by decide) (by decide) (by decide) (by decide)
    (by decide) (by decide)

/-- C4, as stated, fails: the suffix `1ab` of `abc.1ab` is not a decimal
numeral, and `find_sharenum` accepts the name with index 1. -/
theorem find_sharenum_accepts_non_numeral :
    find_sharenum ['a', 'b', 'c', '.', '1', 'a', 'b'] = .ok (['a', 'b', 'c'], 1)
      ∧ ¬ (∀ ch ∈ ['1', 'a', 'b'], isdigit ch = true) := by
  decide

/-- C4, amended: `find_sharenum` fails (return value -1, `errno = EINVAL`)
exactly for the names with no dot, or whose last dot is not followed by exactly
three characters, or is preceded by fewer than three, or whose three-character
suffix has an `atoi` value outside 1..255; the suffix need not be a numeral. -/
theorem find_sharenum_fails_iff (fname : List Char) :
    find_sharenum fname = .error EINVAL ↔
      ('.' ∉ fname ∨
        ∃ pre suf, fname = pre ++ '.' :: suf ∧ '.' ∉ suf ∧
          (suf.length ≠ 3 ∨ pre.length < 3 ∨ atoi suf < 1 ∨ 255 < atoi suf)) := by
  constructor
  · intro hf
    by_cases hd : '.' ∈ fname
    · right
      cases hr : strrchr fname '.' with
      | none => exact absurd hd ((strrchr_none_iff fname '.').mp hr)
      | some d =>
        obtain ⟨pre, suf, hs, hsuf, _⟩ := strrchr_some_split fname '.' d hr
        refine ⟨pre, suf, hs, hsuf, ?_⟩
        rw [hs, find_sharenum_split pre suf hsuf] at hf
        by_contra hcon
        push_neg at hcon
        obtain ⟨h1, h2, h3, h4⟩ := hcon
        have h1n : ¬ suf.length ≠ 3 := by simp [h1]
        have h2n : ¬ pre.length < 3 := by omega
        have h3n : ¬ (atoi suf < 1 ∨ atoi suf > 255) := by omega
        rw [if_neg h1n, if_neg h2n, if_neg h3n] at hf
        cases hf
    · left; exact hd
  · rintro (hd | ⟨pre, suf, hs, hsuf, hbad⟩)
    · have := (strrchr_none_iff fname '.').mpr hd
      simp [find_sharenum, this]
    · rw [hs, find_sharenum_split pre suf hsuf]
      by_cases h1 : suf.length ≠ 3
      · rw [if_pos h1]
      · rw [if_neg h1]
        by_cases h2 : pre.length < 3
        · rw [if_pos h2]
        · rw [if_neg h2]
          have h3 : atoi suf < 1 ∨ atoi suf > 255 := by
            rcases hbad with h | h | h | h
            · exact absurd h h1
            · exact absurd h h2
            · exact Or.inl h
            · exact Or.inr h
          rw [if_pos h3]

/-! ## The scan: lemmas -/

theorem scan_step_fst (st : List sharefarm_content × Nat) (e : DirEntry) :
    (scan_step st e).1 =
      match accept e with
      | none => st.1
      | some a => inject_accepted st.1 a := by
  unfold scan_step accept
  by_cases hd : e.d_name.head? = some '.'
  · simp [hd]
  · simp only [hd, if_false]
    unfold inject_share
    cases hf : find_sharenum e.d_name with
    | error en => simp
    | ok p =>
      obtain ⟨stem, sharenum⟩ := p
      cases hst : e.st with
      | ok sbuf =>
        simp only [inject_accepted]
        cases hc : find_content st.1 stem <;> simp [hc]
      | fail en =>
        by_cases hen : en = ENOENT
        · simp only [inject_accepted, hen]
          cases hc : find_content st.1 stem <;> simp [hc]
        · simp [hen]

theorem foldl_scan_step_fst (dir : List DirEntry) (st : List sharefarm_content × Nat) :
    (dir.foldl scan_step st).1 = (dir.filterMap accept).foldl inject_accepted st.1 := by
  induction dir generalizing st with
  | nil => rfl
  | cons e rest ih =>
    rw [List.foldl_cons, ih, scan_step_fst]
    cases ha : accept e with
    | none => simp [List.filterMap_cons, ha]
    | some a => simp [List.filterMap_cons, ha]

theorem find_all_shares_fst (dir : List DirEntry) (errno : Nat) :
    (find_all_shares dir errno).1 = (accepted dir).foldl inject_accepted [] := by
  unfold find_all_shares accepted
  rw [foldl_scan_step_fst]

theorem clear_bits_twice (m a b : Nat) :
    clear_bits (clear_bits m a) b = m &&& ((0xFFFFFFFF - a) &&& (0xFFFFFFFF - b)) := by
  unfold clear_bits
  rw [Nat.and_assoc]

theorem masked_mode_true (m : Nat) : masked_mode m true = m &&& 0xFFFFFE00 := by
  have h : (0xFFFFFFFF - 0o777) &&& (0xFFFFFFFF - 0o377) = 0xFFFFFE00 := by decide
  simp only [masked_mode, if_true]
  rw [clear_bits_twice, h]

theorem masked_mode_false (m : Nat) : masked_mode m false = m &&& 0xFFFFFF00 := by
  simp [masked_mode, clear_bits]

theorem masked_mode_masked (m : Nat) (b : Bool) :
    masked_mode (masked_mode m b) true = masked_mode m true := by
  have h1 : (0xFFFFFE00 : Nat) &&& 0xFFFFFE00 = 0xFFFFFE00 := by decide
  have h2 : (0xFFFFFF00 : Nat) &&& 0xFFFFFE00 = 0xFFFFFE00 := by decide
  cases b
  · rw [masked_mode_false, masked_mode_true, masked_mode_true, Nat.and_assoc, h2]
  · rw [masked_mode_true, masked_mode_true, Nat.and_assoc, h1]

theorem masked_mode_S_IFREG : masked_mode S_IFREG false = S_IFREG := by decide

theorem clear_bits_idem (m a : Nat) : clear_bits (clear_bits m a) a = clear_bits m a := by
  unfold clear_bits
  rw [Nat.and_assoc, Nat.and_self]

theorem foldl_clear (l : List sharefarm_content_shares) (m : Nat) :
    l.foldl (fun m s => if s.present = false then clear_bits m 0o777 else m) m =
      if l.any (fun s => !s.present) then clear_bits m 0o777 else m := by
  induction l generalizing m with
  | nil => simp
  | cons s rest ih =>
    rw [List.foldl_cons, ih]
    cases hp : s.present
    · simp [clear_bits_idem, hp]
    · simp [hp]

theorem update_share_mode_eq (c : sharefarm_content) (h : c.sharecount = c.shares.length) :
    update_share_mode c =
      { c with statinfo := { c.statinfo with
          st_mode := masked_mode c.statinfo.st_mode (c.shares.any (fun s => !s.present)) } } := by
  unfold update_share_mode
  simp only [h, List.take_length, foldl_clear, masked_mode]

theorem update_share_mode_stem (c : sharefarm_content) : (update_share_mode c).stem = c.stem := rfl

/-! ### The chain of records -/

theorem find_content_none_iff (l : List sharefarm_content) (n : List Char) :
    find_content l n = none ↔ ∀ c ∈ l, c.stem ≠ n := by
  induction l with
  | nil => simp [find_content]
  | cons c rest ih =>
    unfold find_content
    by_cases h : c.stem = n
    · simp [h]
    · simp [h, ih]

theorem find_content_some (l : List sharefarm_content) (n : List Char) (c : sharefarm_content)
    (h : find_content l n = some c) : c ∈ l ∧ c.stem = n := by
  induction l with
  | nil => simp [find_content] at h
  | cons x rest ih =>
    unfold find_content at h
    by_cases hx : x.stem = n
    · simp [hx] at h
      subst h
      exact ⟨List.mem_cons_self _ _, hx⟩
    · simp [hx] at h
      exact ⟨List.mem_cons_of_mem _ (ih h).1, (ih h).2⟩

theorem find_content_of_mem (l : List sharefarm_content) (c : sharefarm_content)
    (hn : (l.map (fun c => c.stem)).Nodup) (hc : c ∈ l) : find_content l c.stem = some c := by
  induction l with
  | nil => cases hc
  | cons x rest ih =>
    rw [List.map_cons, List.nodup_cons] at hn
    unfold find_content
    rcases List.mem_cons.mp hc with h | h
    · subst h; simp
    · have hne : x.stem ≠ c.stem := by
        intro he
        apply hn.1
        rw [he]
        exact List.mem_map_of_mem _ h
      simp [hne, ih hn.2 h]

theorem map_stem_modify_content (f : sharefarm_content → sharefarm_content)
    (hf : ∀ c, (f c).stem = c.stem) (l : List sharefarm_content) (n : List Char) :
    (modify_content f l n).map (fun c => c.stem) = l.map (fun c => c.stem) := by
  induction l with
  | nil => rfl
  | cons c rest ih =>
    unfold modify_content
    by_cases h : c.stem = n
    · simp [h, hf]
    · simp [h, ih]

theorem mem_modify_content (f : sharefarm_content → sharefarm_content)
    (l : List sharefarm_content) (n : List Char) (hn : (l.map (fun c => c.stem)).Nodup)
    (x : sharefarm_content) :
    x ∈ modify_content f l n ↔
      (x ∈ l ∧ x.stem ≠ n) ∨ ∃ c ∈ l, c.stem = n ∧ x = f c := by
  induction l with
  | nil => simp [modify_content]
  | cons c rest ih =>
    rw [List.map_cons, List.nodup_cons] at hn
    unfold modify_content
    by_cases h : c.stem = n
    · have hrest : ∀ y ∈ rest, y.stem ≠ n := by
        intro y hy he
        apply hn.1
        rw [h, ← he]
        exact List.mem_map_of_mem _ hy
      simp only [h, if_true, List.mem_cons]
      constructor
      · rintro (hx | hx)
        · exact Or.inr ⟨c, Or.inl rfl, h, hx⟩
        · exact Or.inl ⟨Or.inr hx, hrest x hx⟩
      · rintro (⟨hx | hx, hne⟩ | ⟨y, hy | hy, hyn, hxy⟩)
        · subst hx; exact absurd h hne
        · exact Or.inr hx
        · subst hy; exact Or.inl hxy
        · exact absurd hyn (hrest y hy)
    · simp only [h, if_false, List.mem_cons, ih hn.2]
      constructor
      · rintro (hx | ⟨hx, hne⟩ | ⟨y, hy, hyn, hxy⟩)
        · subst hx; exact Or.inl ⟨Or.inl rfl, h⟩
        · exact Or.inl ⟨Or.inr hx, hne⟩
        · exact Or.inr ⟨y, Or.inr hy, hyn, hxy⟩
      · rintro (⟨hx | hx, hne⟩ | ⟨y, hy | hy, hyn, hxy⟩)
        · exact Or.inl hx
        · exact Or.inr (Or.inl ⟨hx, hne⟩)
        · subst hy; exact absurd hyn h
        · exact Or.inr (Or.inr ⟨y, hy, hyn, hxy⟩)

/-! ### The records of a scan -/

theorem accept_present (e : DirEntry) (a : Accepted) (h : accept e = some a) :
    a.share.present = a.sbuf.isSome := by
  unfold accept at h
  by_cases hd : e.d_name.head? = some '.'
  · simp [hd] at h
  · simp only [hd, if_false] at h
    cases hf : find_sharenum e.d_name with
    | error en => simp [hf] at h
    | ok p =>
      obtain ⟨stem, sharenum⟩ := p
      cases hst : e.st with
      | ok sbuf =>
        simp [hf, hst] at h
        subst h
        rfl
      | fail en =>
        by_cases hen : en = ENOENT
        · simp [hf, hst, hen] at h
          subst h
          rfl
        · simp [hf, hst, hen] at h

theorem accepted_present (dir : List DirEntry) :
    ∀ a ∈ accepted dir, a.share.present = a.sbuf.isSome := by
  intro a ha
  unfold accepted at ha
  obtain ⟨e, _, he⟩ := List.mem_filterMap.mp ha
  exact accept_present e a he

theorem content_of_append_other (l : List Accepted) (a : Accepted) (stem : List Char)
    (h : a.stem ≠ stem) : content_of (l ++ [a]) stem = content_of l stem := by
  simp [content_of, List.filter_append, List.filter_cons, h]

theorem stat_of_append (l : List Accepted) (a : Accepted)
    (ha : a.share.present = a.sbuf.isSome) :
    stat_of (l ++ [a]) =
      { a.sbuf.getD (stat_of l) with
        st_mode := masked_mode (a.sbuf.getD (stat_of l)).st_mode (any_absent (l ++ [a])) } := by
  cases hs : a.sbuf with
  | none =>
    have hp : a.share.present = false := by rw [ha, hs]; rfl
    have hl : last_present_stat (l ++ [a]) = last_present_stat l := by
      simp [last_present_stat, List.filterMap_append, hs]
    have hab : any_absent (l ++ [a]) = true := by
      simp [any_absent, hp]
    simp only [stat_of, hl, hab, Option.getD_none, masked_mode_masked]
  | some sb =>
    have hp : a.share.present = true := by rw [ha, hs]; rfl
    have hl : last_present_stat (l ++ [a]) = some sb := by
      simp [last_present_stat, List.filterMap_append, hs]
    simp only [stat_of, hl, Option.getD_some]

theorem any_absent_map (l : List Accepted) :
    (l.map (fun a => a.share)).any (fun s => !s.present) = any_absent l := by
  induction l with
  | nil => rfl
  | cons a rest ih =>
    simp only [List.map_cons, List.any_cons, ih, any_absent]

theorem content_of_append_same (l : List Accepted) (a : Accepted)
    (ha : a.share.present = a.sbuf.isSome) :
    content_of (l ++ [a]) a.stem =
      update_share_mode
        { content_of l a.stem with
          statinfo := a.sbuf.getD (content_of l a.stem).statinfo
          shares := (content_of l a.stem).shares ++ [a.share]
          sharecount := (content_of l a.stem).sharecount + 1 } := by
  rw [update_share_mode_eq _ (by simp [content_of])]
  have hf : (l ++ [a]).filter (fun x => x.stem = a.stem) =
      l.filter (fun x => x.stem = a.stem) ++ [a] := by
    simp [List.filter_append, List.filter_cons]
  have hany : ((content_of l a.stem).shares ++ [a.share]).any (fun s => !s.present) =
      any_absent (l.filter (fun x => x.stem = a.stem) ++ [a]) := by
    simp only [content_of, List.any_append, any_absent_map, any_absent, List.any_cons,
      List.any_nil]
  simp only [hany]
  simp only [content_of, hf, stat_of_append _ a ha, List.map_append, List.length_append,
    List.map_cons, List.map_nil, List.length_cons, List.length_nil]

theorem content_of_no_entry (l : List Accepted) (stem : List Char)
    (h : stem ∉ l.map (fun a => a.stem)) :
    content_of l stem =
      { stem := stem, statinfo := { Stat.zero with st_mode := S_IFREG }, sharecount := 0
        shares := [] } := by
  have hf : l.filter (fun a => a.stem = stem) = [] := by
    rw [List.filter_eq_nil_iff]
    intro a ha he
    apply h
    simp only [decide_eq_true_eq] at he
    rw [← he]
    exact List.mem_map_of_mem _ ha
  simp only [content_of, hf]
  rfl

/-- The chain a scan builds from the accepted entries: the stems are pairwise
distinct, every record is the one its stem's entries add up to, and the stems
are those of the accepted entries. -/
theorem scan_spec (acc : List Accepted)
    (hwf : ∀ a ∈ acc, a.share.present = a.sbuf.isSome) :
    ((acc.foldl inject_accepted []).map (fun c => c.stem)).Nodup ∧
    (∀ c ∈ acc.foldl inject_accepted [], c = content_of acc c.stem) ∧
    (∀ stem, stem ∈ (acc.foldl inject_accepted []).map (fun c => c.stem) ↔
      stem ∈ acc.map (fun a => a.stem)) := by
  induction acc using List.reverseRecOn with
  | nil => simp
  | append_singleton l a ih =>
    have hwl : ∀ x ∈ l, x.share.present = x.sbuf.isSome :=
      fun x hx => hwf x (List.mem_append_left _ hx)
    have hwa : a.share.present = a.sbuf.isSome :=
      hwf a (List.mem_append_right _ (List.mem_singleton_self a))
    obtain ⟨hnd, hc, hm⟩ := ih hwl
    rw [List.foldl_append, List.foldl_cons, List.foldl_nil]
    generalize l.foldl inject_accepted [] = cs at hnd hc hm
    unfold inject_accepted
    cases hfc : find_content cs a.stem with
    | none =>
      have hno : ∀ c ∈ cs, c.stem ≠ a.stem := (find_content_none_iff cs a.stem).mp hfc
      have hnl : a.stem ∉ l.map (fun a => a.stem) := by
        intro h
        obtain ⟨c, hcm, hcs⟩ := List.mem_map.mp ((hm a.stem).mpr h)
        exact hno c hcm hcs
      have hnew : update_share_mode
          { stem := a.stem
            statinfo := a.sbuf.getD { Stat.zero with st_mode := S_IFREG }
            sharecount := 1
            shares := [a.share] } = content_of (l ++ [a]) a.stem := by
        rw [content_of_append_same l a hwa, content_of_no_entry l a.stem hnl]
        rfl
      simp only
      rw [hnew]
      refine ⟨?_, ?_, ?_⟩
      · rw [List.map_cons, List.nodup_cons]
        refine ⟨?_, hnd⟩
        intro h
        obtain ⟨c, hcm, hcs⟩ := List.mem_map.mp h
        exact hno c hcm hcs
      · intro c hcm
        rcases List.mem_cons.mp hcm with h | h
        · rw [h]; rfl
        · rw [content_of_append_other l a c.stem (fun he => hno c h he.symm)]
          exact hc c h
      · intro stem
        simp only [List.map_cons, List.mem_cons, List.map_append, List.mem_append, hm stem,
          List.map_nil, List.mem_singleton, List.not_mem_nil, or_false]
        constructor
        · rintro (h | h)
          · exact Or.inr h
          · exact Or.inl h
        · rintro (h | h)
          · exact Or.inr h
          · exact Or.inl h
    | some c0 =>
      obtain ⟨hc0m, hc0s⟩ := find_content_some cs a.stem c0 hfc
      simp only
      refine ⟨?_, ?_, ?_⟩
      · rw [map_stem_modify_content]
        · exact hnd
        · intro c; rfl
      · intro c hcm
        rw [mem_modify_content _ cs a.stem hnd] at hcm
        rcases hcm with ⟨hcs, hne⟩ | ⟨y, hy, hys, hcy⟩
        · rw [content_of_append_other l a c.stem (fun he => hne he.symm)]
          exact hc c hcs
        · have hy2 := hc y hy
          rw [hys] at hy2
          have hcst : c.stem = a.stem := by rw [hcy]; exact hys
          rw [hcst, content_of_append_same l a hwa, hcy, hy2]
      · intro stem
        rw [map_stem_modify_content]
        · simp only [List.map_append, List.mem_append, hm stem, List.map_cons, List.map_nil,
            List.mem_singleton]
          constructor
          · exact fun h => Or.inl h
          · rintro (h | h)
            · exact h
            · rw [h, ← hm a.stem, ← hc0s]
              exact List.mem_map_of_mem _ hc0m
        · intro c; rfl

theorem mem_scan_eq (dir : List DirEntry) (errno : Nat) (c : sharefarm_content)
    (hc : c ∈ (find_all_shares dir errno).1) : c = content_of (accepted dir) c.stem := by
  rw [find_all_shares_fst] at hc
  exact (scan_spec (accepted dir) (accepted_present dir)).2.1 c hc

theorem filter_stem_length (l : List sharefarm_content)
    (hn : (l.map (fun c => c.stem)).Nodup) (stem : List Char) :
    (l.filter (fun c => c.stem = stem)).length =
      if stem ∈ l.map (fun c => c.stem) then 1 else 0 := by
  induction l with
  | nil => simp
  | cons c rest ih =>
    rw [List.map_cons, List.nodup_cons] at hn
    by_cases h : c.stem = stem
    · have hnot : stem ∉ rest.map (fun c => c.stem) := by rw [← h]; exact hn.1
      have hrest := ih hn.2
      rw [if_neg hnot] at hrest
      simp [List.filter_cons, h, hrest]
    · have hrest := ih hn.2
      have hmem : stem ∈ (c :: rest).map (fun c => c.stem) ↔
          stem ∈ rest.map (fun c => c.stem) := by
        simp only [List.map_cons, List.mem_cons]
        constructor
        · rintro (h1 | h1)
          · exact absurd h1.symm h
          · exact h1
        · exact fun h1 => Or.inr h1
      have hfc : (c :: rest).filter (fun c => c.stem = stem) =
          rest.filter (fun c => c.stem = stem) := by
        simp [List.filter_cons, h]
      rw [hfc, hrest]
      by_cases hs : stem ∈ rest.map (fun c => c.stem)
      · rw [if_pos hs, if_pos (hmem.mpr hs)]
      · rw [if_neg hs, if_neg (fun hn2 => hs (hmem.mp hn2))]

/-! ## The scan: the claims -/

/-- C2: in the result of a scan, a record with at least one share recorded as
absent has every group and other permission bit cleared from its mode
(`mode & 077 = 0`); all of `0777` is cleared then. -/
theorem absent_share_clears_group_other (dir : List DirEntry) (errno : Nat)
    (c : sharefarm_content) (hc : c ∈ (find_all_shares dir errno).1)
    (habs : ∃ s ∈ c.shares, s.present = false) :
    c.statinfo.st_mode &&& 0o77 = 0 ∧ c.statinfo.st_mode &&& 0o777 = 0 := by
  have heq := mem_scan_eq dir errno c hc
  have hany : any_absent ((accepted dir).filter (fun a => a.stem = c.stem)) = true := by
    obtain ⟨s, hs, hp⟩ := habs
    rw [heq] at hs
    simp only [content_of, List.mem_map] at hs
    obtain ⟨a, ha, has⟩ := hs
    simp only [any_absent, List.any_eq_true]
    exact ⟨a, ha, by rw [has, hp]; rfl⟩
  have hmode : c.statinfo.st_mode =
      masked_mode ((last_present_stat ((accepted dir).filter (fun a => a.stem = c.stem))).getD
        { Stat.zero with st_mode := S_IFREG }).st_mode true := by
    conv_lhs => rw [heq]
    simp only [content_of, stat_of, hany]
  have h1 : (0xFFFFFE00 : Nat) &&& 0o77 = 0 := by decide
  have h2 : (0xFFFFFE00 : Nat) &&& 0o777 = 0 := by decide
  rw [hmode, masked_mode_true, Nat.and_assoc, Nat.and_assoc, h1, h2]
  simp

theorem absent_share_clears_group_other_witness :
    content_one_absent ∈ (find_all_shares dir_one_absent 0).1 ∧
      (∃ s ∈ content_one_absent.shares, s.present = false) ∧
      content_one_absent.statinfo.st_mode &&& 0o77 = 0 ∧
      content_one_absent.statinfo.st_mode &&& 0o777 = 0 :=
  ⟨by decide, by decide,
    absent_share_clears_group_other dir_one_absent 0 content_one_absent (by decide) (by decide)⟩

/-- C5: the result of a scan has pairwise distinct stems; its stems are exactly
the stems of the accepted entries, each occurring once; and the share list of a
record is the list of accepted entries of its stem in discovery order, present
or absent, `sharecount` being their number. -/
theorem scan_one_content_per_stem (dir : List DirEntry) (errno : Nat) :
    ((find_all_shares dir errno).1.map (fun c => c.stem)).Nodup ∧
    (∀ stem, stem ∈ (find_all_shares dir errno).1.map (fun c => c.stem) ↔
      stem ∈ (accepted dir).map (fun a => a.stem)) ∧
    (∀ stem, ((find_all_shares dir errno).1.filter (fun c => c.stem = stem)).length =
      if stem ∈ (accepted dir).map (fun a => a.stem) then 1 else 0) ∧
    (∀ c ∈ (find_all_shares dir errno).1,
      c.shares = (accepted_for dir c.stem).map (fun a => a.share) ∧
      c.sharecount = (accepted_for dir c.stem).length) := by
  obtain ⟨hnd, hc, hm⟩ := scan_spec (accepted dir) (accepted_present dir)
  rw [← find_all_shares_fst dir errno] at hnd hc hm
  refine ⟨hnd, hm, ?_, ?_⟩
  · intro stem
    by_cases h : stem ∈ (accepted dir).map (fun a => a.stem)
    · rw [if_pos h, filter_stem_length _ hnd stem, if_pos ((hm stem).mpr h)]
    · rw [if_neg h, filter_stem_length _ hnd stem, if_neg (fun hn => h ((hm stem).mp hn))]
  · intro c hcm
    have := hc c hcm
    constructor
    · conv_lhs => rw [this]
      rfl
    · conv_lhs => rw [this]
      rfl

/-- C10, as stated, fails: with `doc.001` (10 bytes) and `doc.002` (20 bytes)
both present, the first present share has size 10 and the record of `doc` has
size 20, that of the share discovered later. -/
theorem later_present_share_overwrites :
    first_present_stat (accepted_for dir_two_present doc) = some sbuf_a ∧
      sbuf_a.st_size = 10 ∧
      (find_content (find_all_shares dir_two_present 0).1 doc).map
        (fun c => (c.statinfo.st_size, c.statinfo.st_mtime)) = some (20, 2) := by
  decide

/-- C10, amended: for a record of a scan whose stem has a present share, the
attributes (size, owner, timestamps and the mode before masking) are those of
the last present share discovered for that stem; the mode is that share's mode
with `0377` cleared, and `0777` cleared when a share of the stem is absent. -/
theorem content_stat_of_last_present (dir : List DirEntry) (errno : Nat)
    (c : sharefarm_content) (sb : Stat) (hc : c ∈ (find_all_shares dir errno).1)
    (hl : last_present_stat (accepted_for dir c.stem) = some sb) :
    c.statinfo =
      { sb with st_mode := masked_mode sb.st_mode (any_absent (accepted_for dir c.stem)) } := by
  have heq := mem_scan_eq dir errno c hc
  conv_lhs => rw [heq]
  unfold accepted_for at hl
  simp only [content_of, stat_of, hl, Option.getD_some, accepted_for]

theorem content_stat_of_last_present_witness :
    content_two_present ∈ (find_all_shares dir_two_present 0).1 ∧
      last_present_stat (accepted_for dir_two_present content_two_present.stem) = some sbuf_b ∧
      content_two_present.statinfo =
        { sbuf_b with
          st_mode := (masked_mode sbuf_b.st_mode
            (any_absent (accepted_for dir_two_present content_two_present.stem))) } :=
  ⟨by decide, by decide,
    content_stat_of_last_present dir_two_present 0 content_two_present sbuf_b (by decide)
      (by decide)⟩

/-! ## Reading from a session -/

theorem int_of_size_small (n : Nat) (h : n < 2 ^ 31) : int_of_size n = (n : Int) := by
  unfold int_of_size
  have h1 : n % 2 ^ 32 = n := Nat.mod_eq_of_lt (by omega)
  rw [h1, if_pos h]

/-- C6: on an open session whose buffer holds `len` bytes, for an offset with
`0 ≤ offset < len` (an `off_t`, so below `2^63`) and a requested size within the
range of `int`, `secretfs_read` returns `size` when `offset + size ≤ len` and
`len - offset` otherwise, the bytes written are the bytes of the session's
buffer from `offset` on, as many as the count returned, and the handle is the
one passed in. -/
theorem secretfs_read_in_range (h : secretfs_fh) (size : Nat) (offset : Int)
    (hbuf : h.buf.length = h.len) (h0 : 0 ≤ offset) (hoff : offset < h.len)
    (h63 : offset < 2 ^ 63) (hsize : size < 2 ^ 31) :
    (offset + size ≤ h.len →
      secretfs_read (some h) size offset =
        (.done size ((h.buf.drop offset.toNat).take size), some h)) ∧
    (offset + size > h.len →
      secretfs_read (some h) size offset =
        (.done ((h.len : Int) - offset)
          ((h.buf.drop offset.toNat).take (h.len - offset.toNat)), some h)) := by
  obtain ⟨o, rfl⟩ := Int.eq_ofNat_of_zero_le h0
  have ho : ((o : Int) % 2 ^ 64).toNat = o := by omega
  have hto : (o : Int).toNat = o := by omega
  have hoL : o < h.len := by omega
  constructor
  · intro hle
    have hle2 : o + size ≤ h.len := by omega
    have hnc : ¬ (o + size) % 2 ^ 64 > h.len := by
      rw [Nat.mod_eq_of_lt (by omega)]
      omega
    unfold secretfs_read
    simp only [ho, hto, if_neg hnc]
    by_cases hz : size = 0
    · subst hz
      simp
    · have hmem : 0 ≤ (o : Int) ∧ o + size ≤ h.buf.length := ⟨h0, by omega⟩
      rw [if_neg hz, if_pos hmem, int_of_size_small size hsize]
  · intro hgt
    have hgt2 : o + size > h.len := by omega
    have hc : (o + size) % 2 ^ 64 > h.len := by
      rw [Nat.mod_eq_of_lt (by omega)]
      omega
    have hcl : (h.len + 2 ^ 64 - o) % 2 ^ 64 = h.len - o := by omega
    unfold secretfs_read
    simp only [ho, hto, if_pos hc, hcl]
    have hz : ¬ h.len - o = 0 := by omega
    have hmem : 0 ≤ (o : Int) ∧ o + (h.len - o) ≤ h.buf.length := ⟨h0, by omega⟩
    rw [if_neg hz, if_pos hmem, int_of_size_small _ (by omega)]
    have hcast : ((h.len - o : Nat) : Int) = (h.len : Int) - (o : Int) := by omega
    rw [hcast]

theorem secretfs_read_in_range_witness :
    (((3 : Int) + (4 : Nat) ≤ session_ten.len →
      secretfs_read (some session_ten) 4 3 =
        (.done (4 : Nat) ((session_ten.buf.drop (3 : Int).toNat).take 4), some session_ten)) ∧
    ((3 : Int) + (4 : Nat) > session_ten.len →
      secretfs_read (some session_ten) 4 3 =
        (.done ((session_ten.len : Int) - 3)
          ((session_ten.buf.drop (3 : Int).toNat).take (session_ten.len - (3 : Int).toNat)),
          some session_ten))) ∧
    secretfs_read (some session_ten) 4 3 = (.done 4 [4, 5, 6, 7], some session_ten) ∧
    secretfs_read (some session_ten) 9 3 = (.done 7 [4, 5, 6, 7, 8, 9, 10], some session_ten) :=
  ⟨secretfs_read_in_range session_ten 4 3 (by decide) (by decide) (by decide) (by decide)
    (by decide), by decide, by decide⟩

/-- A read at the end of the buffer, `offset = len`, returns 0 and copies
nothing (for sizes below `2^63`, where `offset + size` does not wrap). -/
theorem secretfs_read_at_end (h : secretfs_fh) (size : Nat)
    (hlen : h.len < 2 ^ 63) (hsize : size < 2 ^ 63) :
    secretfs_read (some h) size (h.len : Int) = (.done 0 [], some h) := by
  have ho : ((h.len : Int) % 2 ^ 64).toNat = h.len := by omega
  have hm : (h.len + size) % 2 ^ 64 = h.len + size := Nat.mod_eq_of_lt (by omega)
  unfold secretfs_read
  simp only [ho, hm]
  by_cases hz : size = 0
  · subst hz
    simp
  · have hc : h.len + size > h.len := by omega
    have hcl : (h.len + 2 ^ 64 - h.len) % 2 ^ 64 = 0 := by omega
    rw [if_pos hc, hcl]
    simp

/-- C7 at the failing input: on a session of 10 bytes, a read of 5 bytes at
offset 11 clamps `size` to `10 - 11` modulo `2^64`, which is not zero, and goes
on to the `memcpy`, which reads outside the buffer; it does not return 0. -/
theorem secretfs_read_beyond_end :
    secretfs_read (some session_ten) 5 11 = (.fault, some session_ten) ∧
      (session_ten.len + 2 ^ 64 - 11) % 2 ^ 64 = 2 ^ 64 - 1 ∧
      secretfs_read (some session_ten) 5 11 ≠ (.done 0 [], some session_ten) := by
  decide

/-! ## Reconstruction: the share loop -/

theorem declared_append (a b : List Event) : declared (a ++ b) = declared a ++ declared b := by
  simp [declared, List.filterMap_append]

theorem opened_append (a b : List Event) : opened (a ++ b) = opened a ++ opened b := by
  simp [opened, List.filterMap_append]

theorem supplied_append (a b : List Event) : supplied (a ++ b) = supplied a ++ supplied b := by
  simp [supplied, List.filterMap_append]

/-- The trace of the share loop: nothing is declared in it, the files are
opened in order up to and including the first that does not deliver, the shares
before that one are supplied at their positions, and the loop runs to its end
exactly when every file delivers. -/
theorem read_shares_trace (file : List Char → FileOutcome) (len : Nat)
    (ss : List sharefarm_content_shares) (i : Nat) (st : ReadState) :
    declared (read_shares file len ss i st).2.events = declared st.events ∧
    opened (read_shares file len ss i st).2.events =
      opened st.events ++
        (ss.take ((ss.takeWhile (delivers file len)).length + 1)).map (fun s => s.fname) ∧
    supplied (read_shares file len ss i st).2.events =
      supplied st.events ++
        ((ss.takeWhile (delivers file len)).enumFrom i).map
          (fun p => (p.1, file_bytes file len p.2.fname)) ∧
    (read_shares file len ss i st).1 = ss.all (delivers file len) := by
  induction ss generalizing i st with
  | nil => simp [read_shares]
  | cons s rest ih =>
    unfold read_shares
    cases hf : file s.fname with
    | open_fails en =>
      have hd : delivers file len s = false := by simp [delivers, hf]
      simp [hd, List.takeWhile_cons, declared_append, opened_append, supplied_append,
        declared, opened, supplied]
    | read_fails en =>
      have hd : delivers file len s = false := by simp [delivers, hf]
      simp [hd, List.takeWhile_cons, declared_append, opened_append, supplied_append,
        declared, opened, supplied]
    | data bytes =>
      by_cases hl : (read_bytes len bytes).length ≠ len
      · have hd : delivers file len s = false := by
          simp only [delivers, hf]
          exact decide_eq_false hl
        dsimp only
        rw [if_pos hl]
        simp [hd, List.takeWhile_cons, declared_append, opened_append, supplied_append,
          declared, opened, supplied]
      · have hd : delivers file len s = true := by
          simp only [delivers, hf]
          push_neg at hl
          exact decide_eq_true hl
        have hb : file_bytes file len s.fname = read_bytes len bytes := by
          simp [file_bytes, hf]
        dsimp only
        rw [if_neg hl]
        obtain ⟨h1, h2, h3, h4⟩ := ih (i + 1)
          { st with
            gfc := gfshare_ctx_dec_giveshare st.gfc i (read_bytes len bytes)
            events := st.events ++
              [.file_open s.fname, .file_close s.fname, .gf_giveshare i (read_bytes len bytes)] }
        rw [h1, h2, h3, h4]
        simp [hd, hb, List.takeWhile_cons, declared_append, opened_append, supplied_append,
          declared, opened, supplied, List.enumFrom_cons]

theorem find_sharenum_range (fname stem : List Char) (n : Int)
    (h : find_sharenum fname = .ok (stem, n)) : 1 ≤ n ∧ n ≤ 255 := by
  unfold find_sharenum at h
  cases hr : strrchr fname '.' with
  | none => simp [hr] at h
  | some d =>
    simp only [hr] at h
    by_cases h1 : (d : Int) ≠ (fname.length : Int) - 4
    · rw [if_pos h1] at h; cases h
    · rw [if_neg h1] at h
      by_cases h2 : d < 3
      · rw [if_pos h2] at h; cases h
      · rw [if_neg h2] at h
        by_cases h3 : atoi (fname.drop (d + 1)) < 1 ∨ atoi (fname.drop (d + 1)) > 255
        · simp only [h3, if_true] at h; cases h
        · simp only [h3, if_false] at h
          injection h with h
          injection h with _ hn
          rw [← hn]
          omega

theorem accept_range (e : DirEntry) (a : Accepted) (h : accept e = some a) :
    1 ≤ a.share.sharenum ∧ a.share.sharenum ≤ 255 := by
  unfold accept at h
  by_cases hd : e.d_name.head? = some '.'
  · simp [hd] at h
  · simp only [hd, if_false] at h
    cases hf : find_sharenum e.d_name with
    | error en => simp [hf] at h
    | ok p =>
      obtain ⟨stem, sharenum⟩ := p
      have hr := find_sharenum_range e.d_name stem sharenum hf
      cases hst : e.st with
      | ok sbuf =>
        simp [hf, hst] at h
        subst h
        exact hr
      | fail en =>
        by_cases hen : en = ENOENT
        · simp [hf, hst, hen] at h
          subst h
          exact hr
        · simp [hf, hst, hen] at h

theorem scan_sharenum_range (dir : List DirEntry) (errno : Nat) (c : sharefarm_content)
    (hc : c ∈ (find_all_shares dir errno).1) :
    ∀ s ∈ c.shares, 1 ≤ s.sharenum ∧ s.sharenum ≤ 255 := by
  intro s hs
  rw [mem_scan_eq dir errno c hc] at hs
  simp only [content_of, List.mem_map, List.mem_filter] at hs
  obtain ⟨a, ⟨ha, _⟩, has⟩ := hs
  obtain ⟨e, _, he⟩ := List.mem_filterMap.mp ha
  rw [← has]
  exact accept_range e a he

theorem scan_sharecount (dir : List DirEntry) (errno : Nat) (c : sharefarm_content)
    (hc : c ∈ (find_all_shares dir errno).1) : c.sharecount = c.shares.length := by
  rw [mem_scan_eq dir errno c hc]
  simp [content_of]

theorem scan_sharenrs (dir : List DirEntry) (errno : Nat) (c : sharefarm_content)
    (hc : c ∈ (find_all_shares dir errno).1) :
    sharenrs_of c = c.shares.map (fun s => s.sharenum.toNat) := by
  unfold sharenrs_of
  rw [scan_sharecount dir errno c hc, List.take_length]
  apply List.map_congr_left
  intro s hs
  have := scan_sharenum_range dir errno c hc s hs
  omega

/-- The trace of `sharefarm_read` on a stem found: that of the share loop,
followed by calls that declare, open and supply nothing. -/
theorem sharefarm_read_events
    (recombine : List Nat → Nat → List (List Nat) → List Nat) (farm : Farm)
    (path : List Char) (cc : sharefarm_content)
    (hcc : find_content (find_all_shares farm.dir farm.errno).1 path = some cc) :
    ∃ extra, (sharefarm_read recombine farm path).events =
        (read_shares farm.file (cc.statinfo.st_size % 2 ^ 64).toNat
          (cc.shares.take cc.sharecount) 0
          (read_init cc (errno_after_mlock farm (find_all_shares farm.dir farm.errno).2))).2.events ++ extra ∧
      declared extra = [] ∧ opened extra = [] ∧ supplied extra = [] := by
  unfold sharefarm_read
  simp only [hcc]
  split_ifs
  · exact ⟨_, List.append_assoc _ _ _, rfl, rfl, rfl⟩
  · exact ⟨_, rfl, rfl, rfl, rfl⟩
  · exact ⟨_, List.append_assoc _ _ _, rfl, rfl, rfl⟩
  · exact ⟨_, rfl, rfl, rfl, rfl⟩

theorem accept_stem (e : DirEntry) (a : Accepted) (h : accept e = some a) :
    stem_of e.d_name = some a.stem := by
  unfold accept at h
  unfold stem_of
  by_cases hd : e.d_name.head? = some '.'
  · simp [hd] at h
  · simp only [hd, if_false] at h
    cases hf : find_sharenum e.d_name with
    | error en => simp [hf] at h
    | ok p =>
      obtain ⟨stem, sharenum⟩ := p
      cases hst : e.st with
      | ok sbuf =>
        simp [hf, hst] at h
        subst h
        rfl
      | fail en =>
        by_cases hen : en = ENOENT
        · simp [hf, hst, hen] at h
          subst h
          rfl
        · simp [hf, hst, hen] at h

/-- The accepted entries of a stem are those of the directory entries whose
name the parser gives that stem. -/
theorem accepted_for_eq (dir : List DirEntry) (stem : List Char) :
    accepted_for dir stem =
      (dir.filter (fun e => stem_of e.d_name = some stem)).filterMap accept := by
  unfold accepted_for accepted
  induction dir with
  | nil => rfl
  | cons e rest ih =>
    cases ha : accept e with
    | none =>
      by_cases hs : stem_of e.d_name = some stem
      · simp [List.filterMap_cons, List.filter_cons, ha, hs, ih]
      · simp [List.filterMap_cons, List.filter_cons, ha, hs, ih]
    | some a =>
      have hst := accept_stem e a ha
      by_cases hs : a.stem = stem
      · have hs2 : stem_of e.d_name = some stem := by rw [hst, hs]
        simp [List.filterMap_cons, List.filter_cons, ha, hs, hs2, ih]
      · have hs2 : ¬ stem_of e.d_name = some stem := by
          rw [hst]
          intro h
          exact hs (Option.some.inj h)
        simp [List.filterMap_cons, List.filter_cons, ha, hs, hs2, ih]

theorem accept_share_file (stem : List Char) (n : Nat) (sb : Stat)
    (hs : 3 ≤ stem.length) (hd : stem.head? ≠ some '.') (h1 : 1 ≤ n) (h2 : n ≤ 255) :
    accept ⟨share_file stem n, .ok sb⟩ =
      some { stem := stem, share := ⟨share_file stem n, (n : Int), true⟩, sbuf := some sb } := by
  have hn : 100 * (n / 100) + 10 * (n / 10 % 10) + n % 10 = n := by omega
  have hv : find_sharenum (share_name stem (n / 100) (n / 10 % 10) (n % 10)) =
      .ok (stem, (n : Int)) := by
    unfold share_name
    rw [find_sharenum_split stem _
        (digits_not_dot (n / 100) (n / 10 % 10) (n % 10) (by omega) (by omega) (by omega)),
      atoi_three_digits (n / 100) (n / 10 % 10) (n % 10) (by omega) (by omega) (by omega), hn]
    have h1 : ¬ ([digitChar (n / 100), digitChar (n / 10 % 10), digitChar (n % 10)].length ≠ 3) := by
      simp
    have h2 : ¬ stem.length < 3 := by omega
    have h3 : ¬ ((n : Int) < 1 ∨ (n : Int) > 255) := by omega
    rw [if_neg h1, if_neg h2, if_neg h3]
  have hhead : (share_file stem n).head? = stem.head? := by
    cases stem with
    | nil => simp at hs
    | cons x xs => rfl
  unfold accept
  simp only [hhead, hd, if_false]
  unfold share_file
  rw [hv]

/-- Beyond `MAX_RW_COUNT` the one `read` call is short whatever the file holds. -/
theorem read_bytes_capped (len : Nat) (b : List Nat) (hlen : MAX_RW_COUNT < len) :
    (read_bytes len b).length ≠ len := by
  unfold read_bytes
  rw [List.length_take]
  omega

theorem read_bytes_full (len : Nat) (b : List Nat) (hlen : len ≤ MAX_RW_COUNT)
    (hb : b.length = len) : read_bytes len b = b := by
  unfold read_bytes
  rw [Nat.min_eq_left hlen, ← hb]
  exact List.take_length b

/-- The share loop when every backing file holds `len` bytes, `len` being no
more than one `read` call transfers: it runs to its end, `ret` is untouched, and
the slots of the context from position `i` on hold the bytes of the files, in
order. -/
theorem read_shares_all (file : List Char → FileOutcome) (len : Nat)
    (ss : List sharefarm_content_shares) (i : Nat) (st : ReadState)
    (pre post : List (List Nat)) (hlen : len ≤ MAX_RW_COUNT)
    (hfile : ∀ s ∈ ss, ∃ b, file s.fname = .data b ∧ b.length = len)
    (hsize : st.gfc.size = len) (hbuf : st.gfc.buffer = pre ++ post)
    (hpre : pre.length = i) (hpost : post.length = ss.length) :
    (read_shares file len ss i st).1 = true ∧
    (read_shares file len ss i st).2.ret = st.ret ∧
    (read_shares file len ss i st).2.gfc.sharenrs = st.gfc.sharenrs ∧
    (read_shares file len ss i st).2.gfc.size = st.gfc.size ∧
    (read_shares file len ss i st).2.gfc.buffer =
      pre ++ ss.map (fun s => file_bytes file len s.fname) := by
  induction ss generalizing i st pre post with
  | nil =>
    have hp : post = [] := List.length_eq_zero.mp hpost
    simp [read_shares, hbuf, hp]
  | cons s rest ih =>
    obtain ⟨b, hb, hbl⟩ := hfile s (List.mem_cons_self _ _)
    cases post with
    | nil => simp at hpost
    | cons x post1 =>
      have hrb : read_bytes len b = b := read_bytes_full len b hlen hbl
      have htake : b.take len = b := by rw [← hbl]; exact List.take_length b
      have hfb : file_bytes file len s.fname = b := by simp [file_bytes, hb, hrb]
      have hok : ¬ (read_bytes len b).length ≠ len := by rw [hrb]; simp [hbl]
      unfold read_shares
      simp only [hb]
      rw [if_neg hok]
      have hset : (pre ++ x :: post1).set i (b.take st.gfc.size) = (pre ++ [b]) ++ post1 := by
        rw [hsize, htake, List.set_append_right i b (by omega), hpre]
        simp
      obtain ⟨r1, r2, r3, r4, r5⟩ := ih (i + 1)
        { st with
          gfc := gfshare_ctx_dec_giveshare st.gfc i (read_bytes len b)
          events := st.events ++
            [.file_open s.fname, .file_close s.fname, .gf_giveshare i (read_bytes len b)] }
        (pre ++ [b]) post1
        (fun t ht => hfile t (List.mem_cons_of_mem _ ht))
        (by simpa [gfshare_ctx_dec_giveshare] using hsize)
        (by simp only [gfshare_ctx_dec_giveshare, hbuf, hrb]
            rw [← hset, hsize, htake])
        (by simp [hpre])
        (by simpa using hpost)
      refine ⟨r1, r2, r3, r4, ?_⟩
      rw [r5, List.map_cons, hfb]
      simp

theorem filterMap_accept_shares (stem : List Char) (sts : Nat → Stat)
    (hs : 3 ≤ stem.length) (hd : stem.head? ≠ some '.') (shares : List (Nat × List Nat))
    (hidx : ∀ p ∈ shares, 1 ≤ p.1 ∧ p.1 ≤ 255) :
    (shares.map (share_entry stem sts)).filterMap accept =
      shares.map (share_accepted stem sts) := by
  induction shares with
  | nil => rfl
  | cons p rest ih =>
    have hp := hidx p (List.mem_cons_self _ _)
    rw [List.map_cons, List.filterMap_cons]
    unfold share_entry
    rw [accept_share_file stem p.1 (sts p.1) hs hd hp.1 hp.2]
    have := ih (fun q hq => hidx q (List.mem_cons_of_mem _ hq))
    unfold share_entry at this
    rw [this]
    rfl

/-- The record a scan holds for a stem whose entries are the share files
`stem.NNN` of `shares`, all present and of the size of the secret. -/
theorem roundtrip_content (farm : Farm) (stem : List Char) (size : Int)
    (shares : List (Nat × List Nat)) (sts : Nat → Stat)
    (hs : 3 ≤ stem.length) (hd : stem.head? ≠ some '.') (hne : shares ≠ [])
    (hidx : ∀ p ∈ shares, 1 ≤ p.1 ∧ p.1 ≤ 255)
    (hdir : farm.dir.filter (fun e => stem_of e.d_name = some stem) =
      shares.map (share_entry stem sts))
    (hsize : ∀ p ∈ shares, (sts p.1).st_size = size) :
    ∃ cc, find_content (find_all_shares farm.dir farm.errno).1 stem = some cc ∧
      cc.shares = shares.map (fun p => ⟨share_file stem p.1, (p.1 : Int), true⟩) ∧
      cc.sharecount = shares.length ∧ cc.statinfo.st_size = size := by
  have hacc : (accepted farm.dir).filter (fun a => a.stem = stem) =
      shares.map (share_accepted stem sts) := by
    have := accepted_for_eq farm.dir stem
    unfold accepted_for at this
    rw [this, hdir, filterMap_accept_shares stem sts hs hd shares hidx]
  obtain ⟨hnd, hc, hm⟩ := scan_spec (accepted farm.dir) (accepted_present farm.dir)
  rw [← find_all_shares_fst farm.dir farm.errno] at hnd hc hm
  obtain ⟨p0, rest, hp0⟩ := List.exists_cons_of_ne_nil hne
  have hstem : stem ∈ (accepted farm.dir).map (fun a => a.stem) := by
    have hmem : share_accepted stem sts p0 ∈
        (accepted farm.dir).filter (fun a => a.stem = stem) := by
      rw [hacc, hp0]
      exact List.mem_cons_self _ _
    exact List.mem_map.mpr ⟨_, (List.mem_filter.mp hmem).1, rfl⟩
  obtain ⟨c, hcm, hcs⟩ := List.mem_map.mp ((hm stem).mpr hstem)
  have hfind := find_content_of_mem _ c hnd hcm
  have hceq := hc c hcm
  rw [hcs] at hfind hceq
  refine ⟨c, hfind, ?_, ?_, ?_⟩
  · rw [hceq]
    simp only [content_of, hacc, List.map_map]
    rfl
  · rw [hceq]
    simp only [content_of, hacc, List.length_map]
  · rw [hceq]
    simp only [content_of, stat_of, hacc]
    cases hl : last_present_stat (shares.map (share_accepted stem sts)) with
    | none =>
      exfalso
      simp only [last_present_stat, List.getLast?_eq_none_iff, List.filterMap_map] at hl
      rw [hp0] at hl
      simp [share_accepted] at hl
    | some sb =>
      have hin := List.mem_of_getLast?_eq_some hl
      simp only [List.filterMap_map, List.mem_filterMap] at hin
      obtain ⟨p, hp, hpe⟩ := hin
      simp only [Function.comp, share_accepted, Option.some.injEq] at hpe
      rw [Option.getD_some, ← hpe]
      exact hsize p hp

/-- On the share files of `shares`, all present and as long as the secret,
`sharefarm_read` returns 0 with `*len` the length of the secret and `*buf` what
the reconstructor makes of the indices and bytes of `shares`, in order. -/
theorem sharefarm_read_shares
    (recombine : List Nat → Nat → List (List Nat) → List Nat) (farm : Farm)
    (stem : List Char) (n : Nat) (shares : List (Nat × List Nat)) (sts : Nat → Stat)
    (hs : 3 ≤ stem.length) (hd : stem.head? ≠ some '.') (hne : shares ≠ [])
    (hidx : ∀ p ∈ shares, 1 ≤ p.1 ∧ p.1 ≤ 255)
    (hlenb : ∀ p ∈ shares, p.2.length = n)
    (hn : n ≤ MAX_RW_COUNT)
    (hdir : farm.dir.filter (fun e => stem_of e.d_name = some stem) =
      shares.map (share_entry stem sts))
    (hsize : ∀ p ∈ shares, (sts p.1).st_size = (n : Int))
    (hfile : ∀ p ∈ shares, farm.file (share_file stem p.1) = .data p.2) :
    (sharefarm_read recombine farm stem).ret = 0 ∧
    (sharefarm_read recombine farm stem).len = n ∧
    (sharefarm_read recombine farm stem).buf_freed = false ∧
    (sharefarm_read recombine farm stem).buf =
      (recombine (shares.map (fun p => p.1)) n (shares.map (fun p => p.2))).take n ++
        (List.replicate n 0).drop
          (recombine (shares.map (fun p => p.1)) n (shares.map (fun p => p.2))).length := by
  obtain ⟨cc, hcc, hsh, hcnt, hsz⟩ :=
    roundtrip_content farm stem (n : Int) shares sts hs hd hne hidx hdir hsize
  have hn31 : n < 2 ^ 31 := by
    unfold MAX_RW_COUNT at hn
    omega
  have hlen : ((n : Int) % 2 ^ 64).toNat = n := by omega
  have hton : ((n : Int)).toNat = n := by omega
  have htake : cc.shares.take cc.sharecount = cc.shares := by
    rw [hcnt, hsh, List.take_of_length_le (by simp)]
  have hnrs : sharenrs_of cc = shares.map (fun p => p.1) := by
    unfold sharenrs_of
    rw [htake, hsh, List.map_map]
    apply List.map_congr_left
    intro p hp
    have := hidx p hp
    simp only [Function.comp]
    omega
  have hfile2 : ∀ s ∈ cc.shares, ∃ b, farm.file s.fname = .data b ∧ b.length = n := by
    intro s hsm
    rw [hsh] at hsm
    obtain ⟨p, hp, hps⟩ := List.mem_map.mp hsm
    rw [← hps]
    exact ⟨p.2, hfile p hp, hlenb p hp⟩
  have hbytes : cc.shares.map (fun s => file_bytes farm.file n s.fname) =
      shares.map (fun p => p.2) := by
    rw [hsh, List.map_map]
    apply List.map_congr_left
    intro p hp
    simp only [Function.comp, file_bytes, hfile p hp]
    exact read_bytes_full n p.2 hn (hlenb p hp)
  obtain ⟨r1, r2, r3, r4, r5⟩ := read_shares_all farm.file n cc.shares 0
    (read_init cc (errno_after_mlock farm (find_all_shares farm.dir farm.errno).2)) []
    (List.replicate cc.sharecount (List.replicate n 0)) hn hfile2
    (by simp [read_init, gfshare_ctx_init_dec, hsz, hton])
    (by simp [read_init, gfshare_ctx_init_dec, hsz, hton])
    rfl (by simp [hcnt, hsh])
  have hret0 : (read_init cc (errno_after_mlock farm (find_all_shares farm.dir farm.errno).2)).ret = 0 := rfl
  have hnrs0 : (read_init cc (errno_after_mlock farm (find_all_shares farm.dir farm.errno).2)).gfc.sharenrs =
      shares.map (fun p => p.1) := by
    simp only [read_init, gfshare_ctx_init_dec, hnrs, hcnt]
    exact List.take_of_length_le (by simp)
  have hsz0 : (read_init cc (errno_after_mlock farm (find_all_shares farm.dir farm.errno).2)).gfc.size = n := by
    simp [read_init, gfshare_ctx_init_dec, hsz, hton]
  rw [hret0] at r2
  rw [hnrs0] at r3
  rw [hsz0] at r4
  rw [List.nil_append, hbytes] at r5
  unfold sharefarm_read
  simp only [hcc, hsz, hlen, htake]
  generalize read_shares farm.file n cc.shares 0
    (read_init cc (errno_after_mlock farm (find_all_shares farm.dir farm.errno).2)) = loop at r1 r2 r3 r4 r5
  have hnot : ¬ ((0 : Int) < 0) := by decide
  simp only [r1, if_true, r2, gfshare_ctx_dec_extract, r3, r4, r5, List.length_replicate]
  rw [if_neg hnot]
  exact ⟨rfl, rfl, rfl, rfl⟩

/-! ## Reconstruction: the claims -/

/-- C8, as stated, fails: in `farm_one_absent` the share `doc.002` is recorded
as absent, and `sharefarm_read` declares its index 2 to the reconstructor and
passes its name to `open`. -/
theorem absent_share_declared_and_opened :
    (find_content (find_all_shares farm_one_absent.dir farm_one_absent.errno).1 doc).map
        (fun c => c.shares) = some [⟨doc001, 1, true⟩, ⟨doc002, 2, false⟩] ∧
      declared (sharefarm_read first_slot farm_one_absent doc).events = [([1, 2], 2, 10)] ∧
      opened (sharefarm_read first_slot farm_one_absent doc).events = [doc001, doc002] := by
  decide

/-- C8, amended: for a stem found by lookup, `sharefarm_read` declares to the
reconstructor every recorded share of the record, present or absent, in
discovery order, each with its own index; it opens the backing files in
discovery order up to and including the first that does not open or does not
deliver `len` bytes, and supplies each share before that one at its position. -/
theorem sharefarm_read_declares_all
    (recombine : List Nat → Nat → List (List Nat) → List Nat) (farm : Farm)
    (path : List Char) (cc : sharefarm_content)
    (hcc : find_content (find_all_shares farm.dir farm.errno).1 path = some cc) :
    declared (sharefarm_read recombine farm path).events =
      [(cc.shares.map (fun s => s.sharenum.toNat), cc.shares.length,
        cc.statinfo.st_size.toNat)] ∧
    opened (sharefarm_read recombine farm path).events =
      (cc.shares.take ((cc.shares.takeWhile
        (delivers farm.file (cc.statinfo.st_size % 2 ^ 64).toNat)).length + 1)).map
        (fun s => s.fname) ∧
    supplied (sharefarm_read recombine farm path).events =
      ((cc.shares.takeWhile (delivers farm.file (cc.statinfo.st_size % 2 ^ 64).toNat)).enum).map
        (fun p => (p.1, file_bytes farm.file (cc.statinfo.st_size % 2 ^ 64).toNat p.2.fname)) := by
  have hmem := (find_content_some _ path cc hcc).1
  have hcount := scan_sharecount farm.dir farm.errno cc hmem
  have hnrs := scan_sharenrs farm.dir farm.errno cc hmem
  obtain ⟨extra, hev, hx1, hx2, hx3⟩ := sharefarm_read_events recombine farm path cc hcc
  obtain ⟨h1, h2, h3, _⟩ := read_shares_trace farm.file (cc.statinfo.st_size % 2 ^ 64).toNat
    (cc.shares.take cc.sharecount) 0 (read_init cc (errno_after_mlock farm (find_all_shares farm.dir farm.errno).2))
  rw [hev, declared_append, opened_append, supplied_append, hx1, hx2, hx3, h1, h2, h3]
  rw [hcount, List.take_length]
  refine ⟨?_, ?_, ?_⟩
  · simp only [read_init, declared, List.filterMap_cons, List.filterMap_nil, hnrs, hcount,
      List.append_nil]
  · simp only [read_init, opened, List.filterMap_cons, List.filterMap_nil, List.nil_append,
      List.append_nil]
  · simp only [read_init, supplied, List.filterMap_cons, List.filterMap_nil, List.nil_append,
      List.append_nil, List.enum]

theorem sharefarm_read_declares_all_witness :
    find_content (find_all_shares farm_one_absent.dir farm_one_absent.errno).1 doc =
        some content_one_absent ∧
      declared (sharefarm_read first_slot farm_one_absent doc).events =
        [(content_one_absent.shares.map (fun s => s.sharenum.toNat),
          content_one_absent.shares.length, content_one_absent.statinfo.st_size.toNat)] ∧
      opened (sharefarm_read first_slot farm_one_absent doc).events =
        (content_one_absent.shares.take ((content_one_absent.shares.takeWhile
          (delivers farm_one_absent.file
            (content_one_absent.statinfo.st_size % 2 ^ 64).toNat)).length + 1)).map
          (fun s => s.fname) ∧
      supplied (sharefarm_read first_slot farm_one_absent doc).events =
        ((content_one_absent.shares.takeWhile (delivers farm_one_absent.file
          (content_one_absent.statinfo.st_size % 2 ^ 64).toNat)).enum).map
          (fun p => (p.1, file_bytes farm_one_absent.file
            (content_one_absent.statinfo.st_size % 2 ^ 64).toNat p.2.fname)) :=
  ⟨by decide,
    sharefarm_read_declares_all first_slot farm_one_absent doc content_one_absent (by decide)⟩

/-- C9 at the failing input: in `farm_uneven` the record of `doc` has length 10
(the size of `doc.002`), the read of `doc.001` yields 5 bytes, and `errno` is 0
at that point, so `ret = -errno` is 0: `sharefarm_read` returns 0 without
unlocking or freeing the buffer, and `secretfs_open` makes a session of it. -/
theorem short_read_returns_success :
    delivers farm_uneven.file 10 ⟨doc001, 1, true⟩ = false ∧
      (sharefarm_read first_slot farm_uneven doc).len = 10 ∧
      (sharefarm_read first_slot farm_uneven doc).errno = 0 ∧
      (sharefarm_read first_slot farm_uneven doc).ret = 0 ∧
      (sharefarm_read first_slot farm_uneven doc).buf_freed = false ∧
      Event.munlock 10 ∉ (sharefarm_read first_slot farm_uneven doc).events ∧
      Event.free_buf ∉ (sharefarm_read first_slot farm_uneven doc).events ∧
      (secretfs_open first_slot farm_uneven ('/' :: doc) none).ret = 0 ∧
      (secretfs_open first_slot farm_uneven ('/' :: doc) none).fh =
        some { len := 10, buf := List.replicate 10 0 } := by
  decide

/-- C1, as stated, fails: with the two shares of `secret_ten` placed as `doc.1`
and `doc.2`, both present and as long as the secret, `open` on `doc` fails with
`-ENOENT` and leaves the handle null. -/
theorem plain_share_names_not_found :
    farm_plain_names.dir.map (fun e => e.d_name) =
        [['d', 'o', 'c', '.', '1'], ['d', 'o', 'c', '.', '2']] ∧
      first_slot [1, 2] 10 [secret_ten, secret_ten] = secret_ten ∧
      (secretfs_open first_slot farm_plain_names ('/' :: doc) none).ret = -(ENOENT : Int) ∧
      (secretfs_open first_slot farm_plain_names ('/' :: doc) none).fh = none := by
  decide

/-- C1, amended: let the shares of a secret of at most `MAX_RW_COUNT` bytes (what
the one `read` call per share transfers) be placed in the farm as the files
`stem.NNN`, `NNN` the three-digit decimal index in 1..255, for a stem of at
least 3 characters that does not start with a dot, all present and each as long
as the secret, these being the only entries the parser gives that stem; and let
the reconstructor return the secret on their indices and bytes in listing
order. Then, whether or not `mlock` succeeds, `open` on `/stem` succeeds with a
session holding the secret, a read of the whole length at offset 0 copies the
secret, and `release` unlocks and frees the buffer and nulls the handle. -/
theorem open_read_release_roundtrip
    (recombine : List Nat → Nat → List (List Nat) → List Nat) (farm : Farm)
    (stem : List Char) (secret : List Nat) (shares : List (Nat × List Nat)) (sts : Nat → Stat)
    (hs : 3 ≤ stem.length) (hd : stem.head? ≠ some '.') (hne : shares ≠ [])
    (hidx : ∀ p ∈ shares, 1 ≤ p.1 ∧ p.1 ≤ 255)
    (hlenb : ∀ p ∈ shares, p.2.length = secret.length)
    (hn : secret.length ≤ MAX_RW_COUNT)
    (hdir : farm.dir.filter (fun e => stem_of e.d_name = some stem) =
      shares.map (share_entry stem sts))
    (hsize : ∀ p ∈ shares, (sts p.1).st_size = (secret.length : Int))
    (hfile : ∀ p ∈ shares, farm.file (share_file stem p.1) = .data p.2)
    (hrec : recombine (shares.map (fun p => p.1)) secret.length (shares.map (fun p => p.2)) =
      secret) :
    (secretfs_open recombine farm ('/' :: stem) none).ret = 0 ∧
    (secretfs_open recombine farm ('/' :: stem) none).fh =
      some { len := secret.length, buf := secret } ∧
    secretfs_read (some { len := secret.length, buf := secret }) secret.length 0 =
      (.done secret.length secret, some { len := secret.length, buf := secret }) ∧
    secretfs_release (some { len := secret.length, buf := secret }) =
      (0, none, [.munlock secret.length, .free_buf, .free_fh]) := by
  obtain ⟨h1, h2, _, h4⟩ := sharefarm_read_shares recombine farm stem secret.length shares sts
    hs hd hne hidx hlenb hn hdir hsize hfile
  rw [hrec] at h4
  have hbuf : (sharefarm_read recombine farm stem).buf = secret := by
    rw [h4, List.take_length, List.drop_of_length_le (by simp)]
    simp
  have hnot : ¬ ((0 : Int) < 0) := by decide
  have hn31 : secret.length < 2 ^ 31 := by
    unfold MAX_RW_COUNT at hn
    omega
  refine ⟨?_, ?_, ?_, rfl⟩
  · unfold secretfs_open
    simp only [List.tail_cons, h1]
    rw [if_neg hnot]
  · unfold secretfs_open
    simp only [List.tail_cons, h1, h2, hbuf]
    rw [if_neg hnot]
  · unfold secretfs_read
    have h0 : ((0 : Int) % 2 ^ 64).toNat = 0 := by decide
    have hm : (0 + secret.length) % 2 ^ 64 = secret.length := by omega
    have hc : ¬ secret.length > secret.length := by omega
    simp only [h0, hm, if_neg hc]
    by_cases hz : secret.length = 0
    · have : secret = [] := List.length_eq_zero.mp hz
      subst this
      rfl
    · have hmem : (0 : Int) ≤ 0 ∧ (0 : Int).toNat + secret.length ≤ secret.length := by
        constructor
        · decide
        · simp
      rw [if_neg hz, if_pos hmem, int_of_size_small _ hn31]
      simp

theorem open_read_release_roundtrip_witness :
    (secretfs_open first_slot farm_split ('/' :: doc) none).ret = 0 ∧
    (secretfs_open first_slot farm_split ('/' :: doc) none).fh =
      some { len := secret_ten.length, buf := secret_ten } ∧
    secretfs_read (some { len := secret_ten.length, buf := secret_ten }) secret_ten.length 0 =
      (.done secret_ten.length secret_ten,
        some { len := secret_ten.length, buf := secret_ten }) ∧
    secretfs_release (some { len := secret_ten.length, buf := secret_ten }) =
      (0, none, [.munlock secret_ten.length, .free_buf, .free_fh]) :=
  open_read_release_roundtrip first_slot farm_split doc secret_ten
    [(1, secret_ten), (2, secret_ten)] (fun _ => sbuf_a)
    (by decide) (by decide) (by decide) (by decide) (by decide) (by decide) (by decide)
    (by decide) (by decide) (by decide)

/-! ## The remaining session operations and the mode -/

/-- C13: `secretfs_release` always returns 0; on the null handle (also the one
a release has left behind) it makes no call and leaves the handle null; on an
open handle it unlocks and frees the session's buffer once, frees the session
and nulls the handle; a second release after it makes no call and leaves the
same state. -/
theorem secretfs_release_once (fh : Option secretfs_fh) :
    (secretfs_release fh).1 = 0 ∧
    secretfs_release none = (0, none, []) ∧
    (∀ h, secretfs_release (some h) = (0, none, [.munlock h.len, .free_buf, .free_fh]) ∧
      (secretfs_release (some h)).2.2.count (.munlock h.len) = 1 ∧
      (secretfs_release (some h)).2.2.count .free_buf = 1) ∧
    (secretfs_release fh).2.1 = none ∧
    secretfs_release (secretfs_release fh).2.1 = (0, none, []) := by
  refine ⟨?_, rfl, ?_, ?_, ?_⟩
  · cases fh <;> rfl
  · intro h
    refine ⟨rfl, ?_, ?_⟩
    · simp [secretfs_release, List.count_cons]
    · simp [secretfs_release, List.count_cons]
  · cases fh <;> rfl
  · cases fh <;> rfl

/-- C15, as stated, fails: `secretfs_opendir` on `/doc` returns `-ENOENT` (-2),
not `-ENOTDIR` (-20). -/
theorem secretfs_opendir_not_enotdir :
    secretfs_opendir ('/' :: doc) = -2 ∧ secretfs_opendir ('/' :: doc) ≠ -(ENOTDIR : Int) := by
  decide

/-- C15, amended: `secretfs_opendir` returns 0 exactly when the path is `/`;
for every other path it returns `-ENOENT`. -/
theorem secretfs_opendir_root_only (path : List Char) :
    (secretfs_opendir path = 0 ↔ path = ['/']) ∧
    (path ≠ ['/'] → secretfs_opendir path = -(ENOENT : Int)) := by
  unfold secretfs_opendir
  by_cases h : path = ['/']
  · simp [h]
  · simp [h, ENOENT]

theorem secretfs_opendir_root_only_witness :
    (secretfs_opendir ('/' :: doc) = 0 ↔ '/' :: doc = ['/']) ∧
    ('/' :: doc ≠ ['/'] → secretfs_opendir ('/' :: doc) = -(ENOENT : Int)) :=
  secretfs_opendir_root_only ('/' :: doc)

theorem masked_mode_low (m : Nat) (b : Bool) : masked_mode m b &&& 0o377 = 0 := by
  have h1 : (0xFFFFFE00 : Nat) &&& 0o377 = 0 := by decide
  have h2 : (0xFFFFFF00 : Nat) &&& 0o377 = 0 := by decide
  cases b
  · rw [masked_mode_false, Nat.and_assoc, h2]
    simp
  · rw [masked_mode_true, Nat.and_assoc, h1]
    simp

/-- C16: every record of every scan, whether its shares are present or absent,
has `mode & 0377 = 0`: no permission bit other than owner-read is set. -/
theorem scan_mode_owner_read_only (dir : List DirEntry) (errno : Nat)
    (c : sharefarm_content) (hc : c ∈ (find_all_shares dir errno).1) :
    c.statinfo.st_mode &&& 0o377 = 0 := by
  have heq := mem_scan_eq dir errno c hc
  have hmode : c.statinfo.st_mode =
      (stat_of ((accepted dir).filter (fun a => a.stem = c.stem))).st_mode := by
    conv_lhs => rw [heq]
    rfl
  rw [hmode]
  simp only [stat_of]
  exact masked_mode_low _ _

theorem scan_mode_owner_read_only_witness :
    content_one_absent ∈ (find_all_shares dir_one_absent 0).1 ∧
      content_two_present ∈ (find_all_shares dir_two_present 0).1 ∧
      content_one_absent.statinfo.st_mode &&& 0o377 = 0 ∧
      content_two_present.statinfo.st_mode &&& 0o377 = 0 :=
  ⟨by decide, by decide,
    scan_mode_owner_read_only dir_one_absent 0 content_one_absent (by decide),
    scan_mode_owner_read_only dir_two_present 0 content_two_present (by decide)⟩

theorem scan_stems_nodup (dir : List DirEntry) (errno : Nat) :
    ((find_all_shares dir errno).1.map (fun c => c.stem)).Nodup := by
  rw [find_all_shares_fst]
  exact (scan_spec (accepted dir) (accepted_present dir)).1

/-- C14: for every directory snapshot, `secretfs_getattr` on `/` returns the
farm root's attribute record; on a path `/name` other than `/` it returns the
attributes of the record of a fresh scan whose stem is `name` when there is
one, and fails with `-ENOENT` exactly when there is none. -/
theorem secretfs_getattr_lookup (farm_sbuf : Stat) (dir : List DirEntry) (errno : Nat) :
    secretfs_getattr farm_sbuf dir errno ['/'] = .ok farm_sbuf ∧
    ∀ name : List Char, name ≠ [] →
      (∀ c ∈ (find_all_shares dir errno).1, c.stem = name →
        secretfs_getattr farm_sbuf dir errno ('/' :: name) = .ok c.statinfo) ∧
      ((∃ c ∈ (find_all_shares dir errno).1, c.stem = name) ↔
        ∃ sbuf, secretfs_getattr farm_sbuf dir errno ('/' :: name) = .ok sbuf) ∧
      ((¬ ∃ c ∈ (find_all_shares dir errno).1, c.stem = name) ↔
        secretfs_getattr farm_sbuf dir errno ('/' :: name) = .error ENOENT) := by
  refine ⟨by simp [secretfs_getattr], ?_⟩
  intro name hname
  have hpath : ('/' :: name) ≠ ['/'] := by
    intro h
    exact hname (List.cons.inj h).2
  have hget : secretfs_getattr farm_sbuf dir errno ('/' :: name) =
      sharefarm_stat dir errno name := by
    unfold secretfs_getattr
    rw [if_neg hpath]
    rfl
  rw [hget]
  unfold sharefarm_stat
  cases hf : find_content (find_all_shares dir errno).1 name with
  | none =>
    have hno := (find_content_none_iff _ name).mp hf
    refine ⟨?_, ?_, ?_⟩
    · intro c hc hcs
      exact absurd hcs (hno c hc)
    · constructor
      · rintro ⟨c, hc, hcs⟩
        exact absurd hcs (hno c hc)
      · rintro ⟨sbuf, hs⟩
        cases hs
    · constructor
      · intro _
        rfl
      · rintro _ ⟨c, hc, hcs⟩
        exact absurd hcs (hno c hc)
  | some cc =>
    obtain ⟨hm, hs⟩ := find_content_some _ name cc hf
    refine ⟨?_, ?_, ?_⟩
    · intro c hc hcs
      have := find_content_of_mem _ c (scan_stems_nodup dir errno) hc
      rw [hcs, hf] at this
      rw [Option.some.inj this]
    · constructor
      · intro _
        exact ⟨cc.statinfo, rfl⟩
      · intro _
        exact ⟨cc, hm, hs⟩
    · constructor
      · intro hn
        exact absurd ⟨cc, hm, hs⟩ hn
      · intro h
        cases h

/-- The accepted entries of the stem of a record of a scan are not empty. -/
theorem scan_entries_ne_nil (dir : List DirEntry) (errno : Nat) (c : sharefarm_content)
    (hc : c ∈ (find_all_shares dir errno).1) :
    ∃ a, a ∈ (accepted dir).filter (fun a => a.stem = c.stem) := by
  have hm := (scan_spec (accepted dir) (accepted_present dir)).2.2 c.stem
  rw [← find_all_shares_fst dir errno] at hm
  obtain ⟨a, ha, has⟩ := List.mem_map.mp (hm.mp (List.mem_map_of_mem _ hc))
  exact ⟨a, List.mem_filter.mpr ⟨ha, by simp [has]⟩⟩

/-- C11, as stated, fails: the one share `doc.001` of `doc` is present with
mode 0100644; the record's mode is 0100400, so of the owner bits 0600 only 0400
is kept, and the file-type bits 0100000 are still set. -/
theorem owner_write_cleared_type_kept :
    find_content (find_all_shares dir_single 0).1 doc = some content_single ∧
      content_single.shares.all (fun s => s.present) = true ∧
      first_present_stat (accepted_for dir_single doc) = some sbuf_a ∧
      sbuf_a.st_mode &&& 0o700 = 0o600 ∧
      content_single.statinfo.st_mode &&& 0o700 = 0o400 ∧
      content_single.statinfo.st_mode &&& 0o170000 = 0o100000 := by
  decide

/-- C11, amended: for a record of a scan all of whose recorded shares are
present, the mode is the mode of the last discovered share's stat with `0377`
cleared: the owner-read bit `0400` and the file-type bits `0170000` are those
of that stat, and owner write and execute are cleared. -/
theorem all_present_mode (dir : List DirEntry) (errno : Nat) (c : sharefarm_content)
    (hc : c ∈ (find_all_shares dir errno).1) (hall : ∀ s ∈ c.shares, s.present = true) :
    ∃ sb, last_present_stat (accepted_for dir c.stem) = some sb ∧
      c.statinfo.st_mode = sb.st_mode &&& 0xFFFFFF00 ∧
      c.statinfo.st_mode &&& 0o400 = sb.st_mode &&& 0o400 ∧
      c.statinfo.st_mode &&& 0o300 = 0 ∧
      c.statinfo.st_mode &&& 0o170000 = sb.st_mode &&& 0o170000 := by
  have heq := mem_scan_eq dir errno c hc
  have hpres : ∀ a ∈ (accepted dir).filter (fun a => a.stem = c.stem),
      a.share.present = true := by
    intro a ha
    apply hall
    rw [heq]
    simp only [content_of]
    exact List.mem_map_of_mem _ ha
  have hsome : ∀ a ∈ (accepted dir).filter (fun a => a.stem = c.stem),
      a.sbuf.isSome = true := by
    intro a ha
    rw [← accepted_present dir a (List.mem_filter.mp ha).1]
    exact hpres a ha
  have hany : any_absent ((accepted dir).filter (fun a => a.stem = c.stem)) = false := by
    simp only [any_absent, List.any_eq_false]
    intro a ha
    simp [hpres a ha]
  obtain ⟨a0, ha0⟩ := scan_entries_ne_nil dir errno c hc
  cases hl : last_present_stat ((accepted dir).filter (fun a => a.stem = c.stem)) with
  | none =>
    exfalso
    simp only [last_present_stat, List.getLast?_eq_none_iff, List.filterMap_eq_nil_iff] at hl
    have h1 := hsome a0 ha0
    rw [hl a0 ha0] at h1
    cases h1
  | some sb =>
    have hmode : c.statinfo.st_mode = sb.st_mode &&& 0xFFFFFF00 := by
      conv_lhs => rw [heq]
      simp only [content_of, stat_of, hl, hany, Option.getD_some]
      exact masked_mode_false sb.st_mode
    have h1 : (0xFFFFFF00 : Nat) &&& 0o400 = 0o400 := by decide
    have h2 : (0xFFFFFF00 : Nat) &&& 0o300 = 0 := by decide
    have h3 : (0xFFFFFF00 : Nat) &&& 0o170000 = 0o170000 := by decide
    refine ⟨sb, hl, hmode, ?_, ?_, ?_⟩
    · rw [hmode, Nat.and_assoc, h1]
    · rw [hmode, Nat.and_assoc, h2]
      simp
    · rw [hmode, Nat.and_assoc, h3]

theorem all_present_mode_witness :
    ∃ sb, last_present_stat (accepted_for dir_two_present content_two_present.stem) = some sb ∧
      content_two_present.statinfo.st_mode = sb.st_mode &&& 0xFFFFFF00 ∧
      content_two_present.statinfo.st_mode &&& 0o400 = sb.st_mode &&& 0o400 ∧
      content_two_present.statinfo.st_mode &&& 0o300 = 0 ∧
      content_two_present.statinfo.st_mode &&& 0o170000 = sb.st_mode &&& 0o170000 :=
  all_present_mode dir_two_present 0 content_two_present (by decide) (by decide)

/-! ## The scan of three files -/

theorem scan_sharecount_entries (dir : List DirEntry) (errno : Nat) (c : sharefarm_content)
    (hc : c ∈ (find_all_shares dir errno).1) :
    c.sharecount = ((accepted dir).filter (fun a => a.stem = c.stem)).length := by
  conv_lhs => rw [mem_scan_eq dir errno c hc]
  rfl

theorem accepted_dir_three (sa sb sc : Stat) :
    accepted (dir_three sa sb sc) =
      [⟨doc, ⟨doc001, 1, true⟩, some sa⟩, ⟨doc, ⟨doc002, 2, true⟩, some sb⟩,
        ⟨other, ⟨other001, 1, true⟩, some sc⟩] := by
  have h1 : doc001 = share_file doc 1 := by decide
  have h2 : doc002 = share_file doc 2 := by decide
  have h3 : other001 = share_file other 1 := by decide
  have a1 := accept_share_file doc 1 sa (by decide) (by decide) (by decide) (by decide)
  have a2 := accept_share_file doc 2 sb (by decide) (by decide) (by decide) (by decide)
  have a3 := accept_share_file other 1 sc (by decide) (by decide) (by decide) (by decide)
  rw [← h1] at a1
  rw [← h2] at a2
  rw [← h3] at a3
  simp only [accepted, dir_three, List.filterMap_cons, a1, a2, a3, List.filterMap_nil]
  rfl

/-- C12, as stated, fails: the scan of the present files `doc.1`, `doc.2` and
`other.1` yields no record at all, the parser rejecting the three names. -/
theorem scan_plain_names_empty :
    dir_plain_three.map (fun e => e.d_name) =
        [['d', 'o', 'c', '.', '1'], ['d', 'o', 'c', '.', '2'],
          ['o', 't', 'h', 'e', 'r', '.', '1']] ∧
      (find_all_shares dir_plain_three 0).1 = [] := by
  decide

theorem accepted_visible (dir : List DirEntry) : accepted (visible dir) = accepted dir := by
  unfold accepted visible
  induction dir with
  | nil => rfl
  | cons e rest ih =>
    by_cases hd : e.d_name.head? = some '.'
    · have hnone : accept e = none := by simp [accept, hd]
      have hf : (e :: rest).filter (fun e => e.d_name.head? ≠ some '.') =
          rest.filter (fun e => e.d_name.head? ≠ some '.') := by
        rw [List.filter_cons]
        simp [hd]
      rw [hf, ih, List.filterMap_cons, hnone]
    · have hf : (e :: rest).filter (fun e => e.d_name.head? ≠ some '.') =
          e :: rest.filter (fun e => e.d_name.head? ≠ some '.') := by
        rw [List.filter_cons]
        simp [hd]
      rw [hf, List.filterMap_cons, List.filterMap_cons, ih]

/-- C12, amended: the scan of a farm whose entries, apart from `.`, `..` and
other names starting with a dot, are exactly the present files `doc.001`,
`doc.002` and `other.001`, in any listing order and with any attributes, yields
exactly two records: stem `doc` with sharecount 2 and stem `other` with
sharecount 1. -/
theorem scan_three_files (sa sb sc : Stat) (errno : Nat) (dir : List DirEntry)
    (hperm : (visible dir).Perm (dir_three sa sb sc)) :
    (find_all_shares dir errno).1.length = 2 ∧
    (find_content (find_all_shares dir errno).1 doc).map (fun c => c.sharecount) = some 2 ∧
    (find_content (find_all_shares dir errno).1 other).map (fun c => c.sharecount) = some 1 := by
  have hpa : (accepted dir).Perm (accepted (dir_three sa sb sc)) := by
    rw [← accepted_visible dir]
    exact hperm.filterMap accept
  have hnd := scan_stems_nodup dir errno
  have hm := (scan_spec (accepted dir) (accepted_present dir)).2.2
  rw [← find_all_shares_fst dir errno] at hm
  have hstems : ∀ s, s ∈ (find_all_shares dir errno).1.map (fun c => c.stem) ↔
      s ∈ [doc, other] := by
    intro s
    rw [hm s, (hpa.map (fun a => a.stem)).mem_iff, accepted_dir_three]
    simp
  have hcount : ∀ s, ((accepted dir).filter (fun a => a.stem = s)).length =
      ((accepted (dir_three sa sb sc)).filter (fun a => a.stem = s)).length :=
    fun s => (hpa.filter _).length_eq
  have hlen : (find_all_shares dir errno).1.length = 2 := by
    have hp : ((find_all_shares dir errno).1.map (fun c => c.stem)).Perm [doc, other] :=
      (List.perm_ext_iff_of_nodup hnd (by decide)).mpr hstems
    have := hp.length_eq
    simpa using this
  have hfind : ∀ s n, s ∈ [doc, other] →
      ((accepted (dir_three sa sb sc)).filter (fun a => a.stem = s)).length = n →
      (find_content (find_all_shares dir errno).1 s).map (fun c => c.sharecount) = some n := by
    intro s n hs hn
    obtain ⟨c, hc, hcs⟩ := List.mem_map.mp ((hstems s).mpr hs)
    have hf := find_content_of_mem _ c hnd hc
    have hsc := scan_sharecount_entries dir errno c hc
    rw [hcs] at hf hsc
    rw [hf, Option.map_some', hsc, hcount s, hn]
  refine ⟨hlen, ?_, ?_⟩
  · apply hfind doc 2 (by decide)
    rw [accepted_dir_three]
    rfl
  · apply hfind other 1 (by decide)
    rw [accepted_dir_three]
    rfl

theorem scan_three_files_witness :
    (find_all_shares listing_three 0).1.length = 2 ∧
    (find_content (find_all_shares listing_three 0).1 doc).map (fun c => c.sharecount) =
      some 2 ∧
    (find_content (find_all_shares listing_three 0).1 other).map (fun c => c.sharecount) =
      some 1 :=
  scan_three_files sbuf_a sbuf_five sbuf_b 0 listing_three (by decide)

/-! ## Opening an entry with a missing share -/

theorem find_sharenum_error (fname : List Char) (en : Nat)
    (h : find_sharenum fname = .error en) : en = EINVAL := by
  unfold find_sharenum at h
  cases hr : strrchr fname '.' with
  | none =>
    simp only [hr] at h
    injection h with h
    exact h.symm
  | some d =>
    simp only [hr] at h
    split_ifs at h <;> (injection h with h; exact h.symm)

/-- A turn of the scan loop leaves `errno` positive when it was, every failing
`stat` setting a positive `errno`. -/
theorem scan_step_errno_pos (st : List sharefarm_content × Nat) (e : DirEntry)
    (he : e.st ≠ .fail 0) (hpos : 0 < st.2) : 0 < (scan_step st e).2 := by
  unfold scan_step
  by_cases hd : e.d_name.head? = some '.'
  · rw [if_pos hd]
    exact hpos
  · rw [if_neg hd]
    unfold inject_share
    cases hf : find_sharenum e.d_name with
    | error en =>
      rw [find_sharenum_error e.d_name en hf]
      dsimp only
      decide
    | ok p =>
      obtain ⟨stem, sharenum⟩ := p
      cases hst : e.st with
      | ok sbuf =>
        simp only [Option.isNone_some, Bool.false_eq_true, false_and, if_false]
        cases hc : find_content st.1 stem <;> exact hpos
      | fail en =>
        have hen : 0 < en := by
          rcases Nat.eq_zero_or_pos en with h0 | h0
          · rw [hst, h0] at he
            exact absurd rfl he
          · exact h0
        dsimp only
        split_ifs
        · exact hen
        · cases hc : find_content st.1 stem <;> exact hen

/-- A turn of the scan loop on an entry it records as absent leaves `errno` at
`ENOENT`. -/
theorem scan_step_errno_absent (st : List sharefarm_content × Nat) (e : DirEntry)
    (a : Accepted) (ha : accept e = some a) (hp : a.share.present = false) :
    (scan_step st e).2 = ENOENT := by
  unfold accept at ha
  unfold scan_step
  by_cases hd : e.d_name.head? = some '.'
  · simp [hd] at ha
  · simp only [hd, if_false] at ha
    rw [if_neg hd]
    unfold inject_share
    cases hf : find_sharenum e.d_name with
    | error en => simp [hf] at ha
    | ok p =>
      obtain ⟨stem, sharenum⟩ := p
      cases hst : e.st with
      | ok sbuf =>
        simp [hf, hst] at ha
        subst ha
        cases hp
      | fail en =>
        by_cases hen : en = ENOENT
        · subst hen
          dsimp only
          have hno : ¬ ((none : Option Stat).isNone = true ∧ ENOENT ≠ ENOENT) := by simp
          rw [if_neg hno]
          cases hc : find_content st.1 stem <;> rfl
        · simp [hf, hst, hen] at ha

theorem foldl_scan_errno_pos (dir : List DirEntry) (st : List sharefarm_content × Nat)
    (hstat : ∀ e ∈ dir, e.st ≠ .fail 0)
    (h : 0 < st.2 ∨ ∃ e ∈ dir, ∃ a, accept e = some a ∧ a.share.present = false) :
    0 < (dir.foldl scan_step st).2 := by
  induction dir generalizing st with
  | nil =>
    rcases h with h | ⟨e, he, _⟩
    · exact h
    · cases he
  | cons e rest ih =>
    rw [List.foldl_cons]
    apply ih _ (fun x hx => hstat x (List.mem_cons_of_mem _ hx))
    rcases h with h | ⟨x, hx, a, ha, hp⟩
    · exact Or.inl (scan_step_errno_pos st e (hstat e (List.mem_cons_self _ _)) h)
    · rcases List.mem_cons.mp hx with hxe | hxr
      · subst hxe
        left
        rw [scan_step_errno_absent st x a ha hp]
        decide
      · exact Or.inr ⟨x, hxr, a, ha, hp⟩

/-- The share loop leaves through `goto out` with a negative `ret` when some
backing file does not deliver, `errno` being positive on entry and every
failing `open` or `read` setting a positive `errno`. -/
theorem read_shares_neg (file : List Char → FileOutcome) (len : Nat)
    (ss : List sharefarm_content_shares) (i : Nat) (st : ReadState)
    (hpos : 0 < st.errno)
    (hfile : ∀ t ∈ ss, file t.fname ≠ .open_fails 0 ∧ file t.fname ≠ .read_fails 0)
    (hbad : ∃ t ∈ ss, delivers file len t = false) :
    (read_shares file len ss i st).1 = false ∧ (read_shares file len ss i st).2.ret < 0 := by
  induction ss generalizing i st with
  | nil =>
    obtain ⟨t, ht, _⟩ := hbad
    cases ht
  | cons s rest ih =>
    have hs := hfile s (List.mem_cons_self _ _)
    unfold read_shares
    cases hf : file s.fname with
    | open_fails en =>
      have hen : 0 < en := by
        rcases Nat.eq_zero_or_pos en with h0 | h0
        · rw [hf, h0] at hs
          exact absurd rfl hs.1
        · exact h0
      dsimp only
      exact ⟨rfl, by omega⟩
    | read_fails en =>
      have hen : 0 < en := by
        rcases Nat.eq_zero_or_pos en with h0 | h0
        · rw [hf, h0] at hs
          exact absurd rfl hs.2
        · exact h0
      dsimp only
      exact ⟨rfl, by omega⟩
    | data bytes =>
      dsimp only
      by_cases hl : (read_bytes len bytes).length ≠ len
      · rw [if_pos hl]
        dsimp only
        exact ⟨rfl, by omega⟩
      · rw [if_neg hl]
        apply ih
        · exact hpos
        · exact fun t ht => hfile t (List.mem_cons_of_mem _ ht)
        · obtain ⟨t, ht, hd⟩ := hbad
          rcases List.mem_cons.mp ht with hts | htr
          · subst hts
            exfalso
            simp only [delivers, hf] at hd
            push_neg at hl
            rw [decide_eq_false_iff_not] at hd
            exact hd hl
          · exact ⟨t, htr, hd⟩

/-- C17: for a stem whose record has a share recorded as absent whose backing
file still fails to open (every failing `stat`, `open` and `read` setting a
positive `errno`), `sharefarm_read` returns a negative status having unlocked
and freed its buffer, and `secretfs_open` returns it, creates no session and
leaves the handle as it was (null when it was null); the entry is still
stat'ed and listed. -/
theorem missing_share_never_opens
    (recombine : List Nat → Nat → List (List Nat) → List Nat) (farm : Farm)
    (path : List Char) (cc : sharefarm_content) (s : sharefarm_content_shares) (en : Nat)
    (hcc : find_content (find_all_shares farm.dir farm.errno).1 path = some cc)
    (hs : s ∈ cc.shares) (hp : s.present = false)
    (hopen : farm.file s.fname = .open_fails en)
    (hstat : ∀ e ∈ farm.dir, e.st ≠ .fail 0)
    (hfile : ∀ t ∈ cc.shares,
      farm.file t.fname ≠ .open_fails 0 ∧ farm.file t.fname ≠ .read_fails 0) :
    (sharefarm_read recombine farm path).ret < 0 ∧
    (sharefarm_read recombine farm path).buf_freed = true ∧
    (∀ fh, (secretfs_open recombine farm ('/' :: path) fh).ret < 0 ∧
      (secretfs_open recombine farm ('/' :: path) fh).fh = fh) ∧
    (secretfs_open recombine farm ('/' :: path) none).fh = none ∧
    sharefarm_stat farm.dir farm.errno path = .ok cc.statinfo ∧
    (path, cc.statinfo) ∈ sharefarm_enumerate_helper farm.dir farm.errno := by
  obtain ⟨hmem, hstem⟩ := find_content_some _ path cc hcc
  have hcount := scan_sharecount farm.dir farm.errno cc hmem
  have habs : ∃ e ∈ farm.dir, ∃ a, accept e = some a ∧ a.share.present = false := by
    rw [mem_scan_eq farm.dir farm.errno cc hmem] at hs
    simp only [content_of, List.mem_map, List.mem_filter] at hs
    obtain ⟨a, ⟨ha, _⟩, has⟩ := hs
    obtain ⟨e, he, hea⟩ := List.mem_filterMap.mp ha
    exact ⟨e, he, a, hea, by rw [has]; exact hp⟩
  have hscan : 0 < (find_all_shares farm.dir farm.errno).2 :=
    foldl_scan_errno_pos farm.dir ([], farm.errno) hstat (Or.inr habs)
  have herr : 0 <
      (read_init cc (errno_after_mlock farm (find_all_shares farm.dir farm.errno).2)).errno := by
    simp only [read_init, errno_after_mlock]
    split_ifs with h0
    · exact hscan
    · exact Nat.pos_of_ne_zero h0
  have hdel : delivers farm.file (cc.statinfo.st_size % 2 ^ 64).toNat s = false := by
    simp [delivers, hopen]
  obtain ⟨_, hneg⟩ := read_shares_neg farm.file (cc.statinfo.st_size % 2 ^ 64).toNat
    cc.shares 0 (read_init cc (errno_after_mlock farm (find_all_shares farm.dir farm.errno).2)) herr hfile
    ⟨s, hs, hdel⟩
  have hread : (sharefarm_read recombine farm path).ret < 0 ∧
      (sharefarm_read recombine farm path).buf_freed = true := by
    unfold sharefarm_read
    simp only [hcc]
    rw [hcount, List.take_length, if_pos hneg]
    exact ⟨hneg, rfl⟩
  have hopen2 : ∀ fh, (secretfs_open recombine farm ('/' :: path) fh).ret < 0 ∧
      (secretfs_open recombine farm ('/' :: path) fh).fh = fh := by
    intro fh
    unfold secretfs_open
    simp only [List.tail_cons]
    rw [if_pos hread.1]
    exact ⟨hread.1, rfl⟩
  refine ⟨hread.1, hread.2, hopen2, (hopen2 none).2, ?_, ?_⟩
  · unfold sharefarm_stat
    rw [hcc]
  · unfold sharefarm_enumerate_helper
    rw [← hstem]
    exact List.mem_map_of_mem (fun cc => (cc.stem, cc.statinfo)) hmem

theorem missing_share_never_opens_witness :
    (sharefarm_read first_slot farm_one_absent doc).ret < 0 ∧
    (sharefarm_read first_slot farm_one_absent doc).buf_freed = true ∧
    (secretfs_open first_slot farm_one_absent ('/' :: doc) none).ret < 0 ∧
    (secretfs_open first_slot farm_one_absent ('/' :: doc) none).fh = none ∧
    sharefarm_stat farm_one_absent.dir farm_one_absent.errno doc =
      .ok content_one_absent.statinfo ∧
    (doc, content_one_absent.statinfo) ∈
      sharefarm_enumerate_helper farm_one_absent.dir farm_one_absent.errno :=
  (fun h => ⟨h.1, h.2.1, (h.2.2.1 none).1, h.2.2.2.1, h.2.2.2.2.1, h.2.2.2.2.2⟩)
    (missing_share_never_opens first_slot farm_one_absent doc content_one_absent
      ⟨doc002, 2, false⟩ ENOENT (by decide) (by decide) (by decide) (by decide) (by decide)
      (by decide))

/-- An absent share behind a share whose read is short: in
`farm_short_then_absent` the three shares of `doc` are declared, `doc.001` is
opened and its read of 5 bytes ends the loop, so neither `doc.002` nor the
absent `doc.003` is opened; the status is `-ENOENT`, the `errno` the scan left. -/
theorem absent_share_behind_short_read :
    declared (sharefarm_read first_slot farm_short_then_absent doc).events =
        [([1, 2, 3], 3, 10)] ∧
      opened (sharefarm_read first_slot farm_short_then_absent doc).events = [doc001] ∧
      supplied (sharefarm_read first_slot farm_short_then_absent doc).events = [] ∧
      (sharefarm_read first_slot farm_short_then_absent doc).ret = -(ENOENT : Int) := by
  decide

end SecretFS
